import Mathlib

/-!
Verification development for the signature-parsing and stub-generation core
of `pygenstub` (src/pygenstub.py).  Python strings are modelled as `List Char`
for the lexical scanners and as `String` for the renderer; Python sets are
`Finset String`; fallible code returns `Except PyError`.
-/

namespace Pygenstub

/-- Python `\s` on the ASCII range: space, tab, newline, carriage return,
vertical tab, form feed. -/
def isSpace (c : Char) : Bool :=
  c = ' ' || c = '\t' || c = '\n' || c = '\r' || c = Char.ofNat 11 || c = Char.ofNat 12

/-- Python `\w` (word character) restricted to the ASCII range:
letters, digits and the underscore. -/
def isWordChar (c : Char) : Bool :=
  c.isAlphanum || c = '_'

/-- Leading-whitespace removal, one half of Python `str.strip()`. -/
def lstrip (s : List Char) : List Char := s.dropWhile isSpace

/-- Trailing-whitespace removal, the other half of Python `str.strip()`. -/
def rstrip (s : List Char) : List Char := (s.reverse.dropWhile isSpace).reverse

/-- Model of Python `str.strip()`. -/
def strip (s : List Char) : List Char := rstrip (lstrip s)

/-- Exception values raised by the embedded code.  `valueError` carries the
message built at the raise site; `unresolvedTypes` models the `ValueError`
raised by `analyze_types`, carrying the set of names that the Python code
joins into the message (a Python `set` has no canonical order, so the payload
is kept as a set); `indexError` models an out-of-range subscript. -/
inductive PyError
  | valueError (msg : String)
  | unresolvedTypes (names : Finset String)
  | indexError
  | attributeError
  | typeError
deriving DecidableEq

instance {ε α : Type} [DecidableEq ε] [DecidableEq α] : DecidableEq (Except ε α) := fun x y =>
  match x, y with
  | .ok a, .ok b =>
      if h : a = b then .isTrue (by rw [h]) else .isFalse (by simp [h])
  | .error a, .error b =>
      if h : a = b then .isTrue (by rw [h]) else .isFalse (by simp [h])
  | .ok _, .error _ => .isFalse (by simp)
  | .error _, .ok _ => .isFalse (by simp)

/-!
`_RE_SIG_ARROW = re.compile(r"\s+->\s+")` and `_RE_SIG_ARROW.split(signature)`.

A match of the pattern at a given position must consume the maximal whitespace
run there (shorter choices of the first `\s+` put a whitespace character where
`-` is required), then the two arrow characters, then the maximal whitespace
run after them (the final `\s+` is greedy and unconstrained on the right).
`re.split` scans for the leftmost match, cuts, and resumes after it.
-/

/-- Consume a maximal nonempty run of whitespace (one greedy `\s+`);
return the rest, or `none` if the input does not start with whitespace. -/
def dropSpaces1 (s : List Char) : Option (List Char) :=
  match s with
  | c :: rest => if isSpace c then some (rest.dropWhile isSpace) else none
  | [] => none

/-- Attempt to match `\s+->\s+` at the start of `s`; on success return the
rest of the input after the match. -/
def matchArrowAt (s : List Char) : Option (List Char) := do
  let r1 ← dropSpaces1 s
  match r1 with
  | '-' :: '>' :: r2 => dropSpaces1 r2
  | _ => none

/-- Model of `_RE_SIG_ARROW.split`: scan left to right, cut at each match.
The accumulator holds the characters of the current piece in reverse.  The
`fuel` argument makes the recursion structural so that terms evaluate inside
the kernel; every call site supplies at least the length of the input, which
is always enough because a match consumes at least one character. -/
def arrowSplitGo (fuel : Nat) (s : List Char) (acc : List Char) : List (List Char) :=
  match fuel, s with
  | _, [] => [acc.reverse]
  | 0, _ :: _ => [acc.reverse]
  | fuel + 1, c :: rest =>
      match matchArrowAt (c :: rest) with
      | some r => acc.reverse :: arrowSplitGo fuel r []
      | none => arrowSplitGo fuel rest (c :: acc)

/-- Model of `_RE_SIG_ARROW.split(signature)`. -/
def arrowSplit (s : List Char) : List (List Char) := arrowSplitGo s.length s []

/-!
`_split_types(decl)`: split a parameter-type declaration on top-level commas.
The source first records the indices of commas at bracket depth 0, then
slices the string between consecutive recorded commas.
-/

/-- Indices of the commas at bracket depth 0, mirroring the `for i, char in
enumerate(decl)` loop of `_split_types` (`i` is the running index, `depth`
the bracket counter, which the source lets go negative). -/
def topLevelCommas (s : List Char) (i : Nat) (depth : Int) : List Nat :=
  match s with
  | [] => []
  | c :: rest =>
      if c = ',' ∧ depth = 0 then i :: topLevelCommas rest (i + 1) depth
      else if c = '[' then topLevelCommas rest (i + 1) (depth + 1)
      else if c = ']' then topLevelCommas rest (i + 1) (depth - 1)
      else topLevelCommas rest (i + 1) depth

/-- Python slice `decl[a:b]`. -/
def slice (s : List Char) (a b : Nat) : List Char := (s.drop a).take (b - a)

/-- The `types` loop of `_split_types`: collect the stripped pieces between
consecutive recorded commas, then the stripped tail piece. -/
def piecesBetween (decl : List Char) (commas : List Nat) (last_i : Nat) : List (List Char) :=
  match commas with
  | [] => [strip (decl.drop last_i)]
  | i :: rest => strip (slice decl last_i i) :: piecesBetween decl rest (i + 1)

/-- Model of `_split_types`. -/
def _split_types (decl : List Char) : List (List Char) :=
  if decl = [] then []
  else piecesBetween decl (topLevelCommas decl 0 0) 0

/-!
`_RE_QUALIFIED_TYPES = re.compile(r"\w+(?:\.\w+)*")` and
`_RE_QUALIFIED_TYPES.findall(signature)`.

The scanner walks the string; at each word character it takes the maximal
word run, then greedily extends it with `.`-joined word runs, emits the
token, and resumes after it; every other character is skipped.
-/

/-- Greedy match of `(?:\.\w+)*` (fuelled so the recursion is structural and
kernel-reducible): as long as the input starts with a dot followed by a word
character, consume the dot and the following maximal word run.  Returns the
consumed extension and the rest.  Fuel at least the input length is always
enough, since every step removes at least two characters. -/
def extendDotted (fuel : Nat) (s : List Char) : List Char × List Char :=
  match fuel, s with
  | fuel + 1, '.' :: c :: rest =>
      if isWordChar c then
        let w := (c :: rest).takeWhile isWordChar
        let r := (c :: rest).dropWhile isWordChar
        let er := extendDotted fuel r
        ('.' :: (w ++ er.1), er.2)
      else ([], '.' :: c :: rest)
  | _, other => ([], other)

/-- Greedy-extension wrapper supplying sufficient fuel. -/
def extendDottedW (s : List Char) : List Char × List Char := extendDotted s.length s

/-- Loop of `findall` (fuelled): at each word character take the greedy match
of `\w+(?:\.\w+)*` and resume after it; skip any other character. -/
def findallGo (fuel : Nat) (s : List Char) : List (List Char) :=
  match fuel, s with
  | _, [] => []
  | 0, _ :: _ => []
  | fuel + 1, c :: rest =>
      if isWordChar c then
        let w := (c :: rest).takeWhile isWordChar
        let r := (c :: rest).dropWhile isWordChar
        let er := extendDottedW r
        (w ++ er.1) :: findallGo fuel er.2
      else findallGo fuel rest

/-- Model of `_RE_QUALIFIED_TYPES.findall`: leftmost, greedy, non-overlapping
matches of `\w+(?:\.\w+)*`. -/
def qualifiedFindall (s : List Char) : List (List Char) := findallGo s.length s

/-- The set of type names mentioned anywhere in a signature:
`set(_RE_QUALIFIED_TYPES.findall(signature))`. -/
def requiredTypes (s : List Char) : Finset String :=
  ((qualifiedFindall s).map (fun t => String.mk t)).toFinset

/-- Result triple of `parse_signature`: parameter types (`none` when the
signature has no arrow), return type, and required type names. -/
structure ParseResult where
  param_types : Option (List (List Char))
  return_type : List Char
  requires : Finset String
deriving DecidableEq

/-- Model of `parse_signature(signature)`.  Mirrors the source: split on the
arrow pattern; more than two pieces is an error; one piece means a bare
variable type; two pieces must have a parenthesized left-hand side, which is
then split on top-level commas.  Subscripting `lhs[0]` on an empty left-hand
side raises an `IndexError` in Python, modelled by `PyError.indexError`. -/
def parse_signature (signature : List Char) : Except PyError ParseResult :=
  let sig_parts := arrowSplit signature
  if sig_parts.length > 2 then
    .error (.valueError "multiple arrows in signature")
  else if sig_parts.length = 1 then
    .ok ⟨none, strip signature, requiredTypes signature⟩
  else
    -- here `sig_parts` has exactly two pieces (`arrowSplit` is never empty)
    let lhs := strip (sig_parts.getD 0 [])
    let return_type := strip (sig_parts.getD 1 [])
    match lhs with
    | [] => .error .indexError
    | c :: cs =>
        if c ≠ '(' ∨ (c :: cs).getLast (by simp) ≠ ')' then
          .error (.valueError "missing parentheses around parameter list in signature")
        else
          let csv := strip (slice (c :: cs) 1 ((c :: cs).length - 1))
          .ok ⟨some (_split_types csv), return_type, requiredTypes signature⟩


/-!
Declaration-tree nodes and the renderer (`VariableNode`, `FunctionNode`,
`StubNode.add_child`, `FunctionNode.get_code`).  Node children are the owning
lists; the Python back-reference `parent` is not represented (it is only used
to pick the list to append to, which the walker models explicitly).
-/

def MAX_LINE_LENGTH : Nat := 79

def INDENT : String := "    "

def _SUPPORTED_DECORATORS : List String := ["property", "staticmethod", "classmethod"]

/-- Model of `FunctionNode.__init__`: `async_` is initialized to `False` and,
as in the source, never assigned afterwards.  The field `async_attr` models
the distinct Python attribute `_async` that `visit_FunctionDef` and
`visit_AsyncFunctionDef` assign on the returned node. -/
structure FunctionNode where
  name : String
  async_ : Bool := false
  async_attr : Bool := false
  parameters : List (String × String × Bool)
  rtype : String
  decorators : List String
deriving DecidableEq

/-- Decorator lines kept by `FunctionNode.get_code`: the fixed allow-list
plus anything ending in `.setter`. -/
def FunctionNode.decoLines (f : FunctionNode) : List String :=
  (f.decorators.filter fun deco =>
      _SUPPORTED_DECORATORS.contains deco || deco.endsWith ".setter").map
    (fun deco => "@" ++ deco)

/-- Parameter declarations of `FunctionNode.get_code`:
`name`, then `: type` when the type is nonempty, then ` = ...` on a default. -/
def FunctionNode.paramDecls (f : FunctionNode) : List String :=
  f.parameters.map fun nts =>
    nts.1 ++ (if nts.2.1 ≠ "" then ": " ++ nts.2.1 else "") ++ (if nts.2.2 then " = ..." else "")

/-- The one-line prototype `"%(a)sdef %(n)s(%(p)s) -> %(r)s: ..."`. -/
def FunctionNode.prototype (f : FunctionNode) : String :=
  (if f.async_ then "async " else "") ++ "def " ++ f.name ++ "("
    ++ String.intercalate ", " f.paramDecls ++ ") -> " ++ f.rtype ++ ": ..."

/-- Model of `FunctionNode.get_code`: decorator lines, then the prototype in
one of three forms picked by line length. -/
def FunctionNode.get_code (f : FunctionNode) : List String :=
  let parameters := f.paramDecls
  let a := if f.async_ then "async " else ""
  let p := String.intercalate ", " parameters
  let prototype := a ++ "def " ++ f.name ++ "(" ++ p ++ ") -> " ++ f.rtype ++ ": ..."
  f.decoLines ++
    (if prototype.length ≤ MAX_LINE_LENGTH then
      [prototype]
    else if (INDENT ++ p).length ≤ MAX_LINE_LENGTH then
      [a ++ "def " ++ f.name ++ "(", INDENT ++ p, ") -> " ++ f.rtype ++ ": ..."]
    else
      (a ++ "def " ++ f.name ++ "(")
        :: parameters.map (fun param => INDENT ++ param ++ ",")
        ++ [") -> " ++ f.rtype ++ ": ..."])

/-- Stub-tree nodes as far as the verified claims need them.  `variableNode`
mirrors `VariableNode(name, type_)`; the other constructors only mark the
node kind for the `isinstance` tests. -/
inductive StubNode
  | variableNode (name type_ : String)
  | functionNode (f : FunctionNode)
  | classNode (name : String)
deriving DecidableEq

/-- The `isinstance(node, VariableNode)` test. -/
def StubNode.isVariableNode : StubNode → Bool
  | .variableNode _ _ => true
  | _ => false

/-!
`visit_Assign` and the module-level walk.  The walker state keeps the
accumulated `required_types` and the children list of the root node
(`StubNode.add_child` appends to it).  The line handling mirrors the source:
an occurrence of `"# sig:"` inside a string literal is erased with
`_RE_COMMENT_IN_STRING` first, then the line is split on `"# sig:"`.
-/

def _SIG_COMMENT : List Char := "# sig:".data

/-- Quote characters of `_RE_COMMENT_IN_STRING` (`'` and `"`). -/
def isQuote (c : Char) : Bool := c = Char.ofNat 39 || c = Char.ofNat 34

/-- Substring test, Python `pat in s`. -/
def containsSub (pat : List Char) : List Char → Bool
  | [] => pat.isEmpty
  | c :: rest => pat.isPrefixOf (c :: rest) || containsSub pat rest

/-- Split off everything after the last quote character; `none` when the
input has no quote.  Used for the greedy `.*['\x22]` tail of
`_RE_COMMENT_IN_STRING`. -/
def afterLastQuote : List Char → Option (List Char)
  | [] => none
  | c :: rest =>
      match afterLastQuote rest with
      | some r => some r
      | none => if isQuote c then some rest else none

/-- Match `_RE_COMMENT_IN_STRING` (`['\x22]\s*# sig:\s*.*['\x22]`) at the
start of the input; on success return the rest after the match.  The two
inner `\s*` are greedy but, being subsumed by `.*`, the match succeeds
exactly when a quote starts the input, `# sig:` follows the leading
whitespace, and another quote occurs later; the greedy `.*` runs to the last
such quote. -/
def matchCommentInStringAt (s : List Char) : Option (List Char) :=
  match s with
  | c :: rest =>
      if isQuote c then
        let r1 := rest.dropWhile isSpace
        if _SIG_COMMENT.isPrefixOf r1 then
          afterLastQuote (r1.drop _SIG_COMMENT.length)
        else none
      else none
  | [] => none

/-- Model of `_RE_COMMENT_IN_STRING.sub("", line)` (fuelled scan). -/
def subCommentGo (fuel : Nat) (s : List Char) : List Char :=
  match fuel, s with
  | _, [] => []
  | 0, s => s
  | fuel + 1, c :: rest =>
      match matchCommentInStringAt (c :: rest) with
      | some r => subCommentGo fuel r
      | none => c :: subCommentGo fuel rest

def subCommentInString (s : List Char) : List Char := subCommentGo s.length s

/-- Python `line.split("# sig:")`: all pieces around non-overlapping
occurrences of the separator (fuelled scan). -/
def splitSigGo (fuel : Nat) (s : List Char) (acc : List Char) : List (List Char) :=
  match fuel, s with
  | _, [] => [acc.reverse]
  | 0, s => [acc.reverse ++ s]
  | fuel + 1, c :: rest =>
      if _SIG_COMMENT.isPrefixOf (c :: rest) then
        acc.reverse :: splitSigGo fuel ((c :: rest).drop _SIG_COMMENT.length) []
      else
        splitSigGo fuel rest (c :: acc)

def splitSigComment (s : List Char) : List (List Char) := splitSigGo s.length s []

/-- Assignment targets as far as `visit_Assign` distinguishes them:
a plain name, an attribute `self.<attr>`, or anything else. -/
inductive AssignTarget
  | nameT (id : String)
  | selfAttr (attr : String)
  | otherT
deriving DecidableEq

/-- Walker state for module-level statements: the growing `required_types`
set and the children list of the root node. -/
structure ModuleState where
  required_types : Finset String
  rootChildren : List StubNode
deriving DecidableEq

/-- Loop body of `visit_Assign` (the `for var in node.targets` loop) at
module level: a plain-name target appends a fresh `VariableNode` to the
parent's children with no duplicate check (`generic` mode overwrites the
variable type with `"Any"` and records it as required); a `self.<attr>`
target dereferences `root.parent`, which is `None`, so `p.add_child` raises
an `AttributeError`; any other target shape is skipped. -/
def assignStep (generic : Bool) (rtype? : Option (List Char))
    (acc : Except PyError (Finset String × List StubNode)) (var : AssignTarget) :
    Except PyError (Finset String × List StubNode) :=
  match acc with
  | .error e => .error e
  | .ok (required, children) =>
      match var with
      | .nameT name =>
          if generic then
            .ok (insert "Any" required, children ++ [StubNode.variableNode name "Any"])
          else
            match rtype? with
            | some rt =>
                .ok (required, children ++ [StubNode.variableNode name (String.mk rt)])
            | none => .error (.valueError "return_type referenced before assignment")
      | .selfAttr _ => .error .attributeError
      | .otherT => .ok (required, children)

/-- Model of `StubGenerator.visit_Assign` for a module-level assignment
(`self._parents[-1]` is the root).  A `line.split` result that does not have
exactly two pieces makes the tuple unpacking raise. -/
def visit_Assign_module (generic : Bool) (st : ModuleState) (line0 : List Char)
    (targets : List AssignTarget) : Except PyError ModuleState :=
  let line := if containsSub _SIG_COMMENT line0 then subCommentInString line0 else line0
  if ¬ containsSub _SIG_COMMENT line ∧ ¬ generic then .ok st
  else
    let withSig : Except PyError (Finset String × Option (List Char)) :=
      if containsSub _SIG_COMMENT line then
        match splitSigComment line with
        | [_, signature] =>
            match parse_signature signature with
            | .ok res => .ok (st.required_types ∪ res.requires, some res.return_type)
            | .error e => .error e
        | _ => .error (.valueError "unpack mismatch on line.split")
      else .ok (st.required_types, none)
    match withSig with
    | .error e => .error e
    | .ok (required0, rtype?) =>
        match targets.foldl (assignStep generic rtype?) (.ok (required0, st.rootChildren)) with
        | .error e => .error e
        | .ok (required, children) => .ok ⟨required, children⟩

/-- Module-level statements as far as the claims need them. -/
inductive MiniStmt
  | assign (line : List Char) (targets : List AssignTarget)

/-- Walk a list of module-level assignment statements. -/
def walkModule (generic : Bool) (stmts : List MiniStmt) : Except PyError ModuleState :=
  stmts.foldl
    (fun acc stmt =>
      match acc, stmt with
      | .error e, _ => .error e
      | .ok st, .assign line targets => visit_Assign_module generic st line targets)
    (.ok ⟨∅, []⟩)

/-- Names of the variable nodes in a children list, in order. -/
def variableNames (children : List StubNode) : List String :=
  children.foldr
    (fun n acc =>
      match n with
      | .variableNode name _ => name :: acc
      | _ => acc) []

/-!
`StubGenerator.analyze_types`.  The generator state carries the fields the
method reads: the root's children, the keys of `imported_namespaces`
(from plain `import` statements) and of `imported_names` (from
`from ... import` statements), `defined_types` and `required_types`.
The externally defined name universes — `_BUILTIN_TYPES` (derived from the
Python `builtins` module) and the `hasattr(typing, name)` test — are
parameters of the embedding.
-/

structure StubGenerator where
  rootChildren : List StubNode
  imported_namespaces : List String
  imported_names : List String
  defined_types : Finset String
  required_types : Finset String

/-- Characters before the first `"::"`. -/
def splitColonsGo : List Char → List Char → List Char
  | [], acc => acc.reverse
  | ':' :: ':' :: _, acc => acc.reverse
  | c :: rest, acc => splitColonsGo rest (c :: acc)

/-- First piece of `name.split("::")`. -/
def beforeColons (name : String) : String :=
  String.mk (splitColonsGo name.data [])

/-- Python `"." in name`. -/
def hasDotChar (name : String) : Bool := name.data.contains '.'

/-- Index of the last dot, Python `name.rfind(".")` (with `none` for `-1`). -/
def lastDotIdx : List Char → Nat → Option Nat → Option Nat
  | [], _, best => best
  | c :: rest, i, best => lastDotIdx rest (i + 1) (if c = '.' then some i else best)

/-- Python `name[: name.rfind(".")]`: the name up to its last dot.  When the
name has no dot, `rfind` is `-1` and the slice drops the last character. -/
def beforeLastDot (name : String) : String :=
  match lastDotIdx name.data 0 none with
  | some i => String.mk (name.data.take i)
  | none => String.mk (name.data.take (name.data.length - 1))

/-- Python equality between a `str` and a `VariableNode` object: the two
types are unrelated, so `==` falls back to identity and is always `False`. -/
def pyStrEqNode (_ : String) (_ : StubNode) : Bool := false

/-- Python `name in module_vars` where `module_vars` is a set of
`VariableNode` objects and `name` a string. -/
def pyStrInNodes (name : String) (nodes : List StubNode) : Bool :=
  nodes.any (fun n => pyStrEqNode name n)

/-- Report produced by `analyze_types`.  In the source the report is a dict
whose keys are only present when the corresponding set is nonempty; consumers
read them with `.get`, so an absent key and an empty set are
indistinguishable and both are modelled as `∅`. -/
structure TypeReport where
  imported : Finset String
  modules : Finset String
  typing : Finset String
deriving DecidableEq

/-- Model of `StubGenerator.analyze_types`.  `_BUILTIN_TYPES` is the set of
builtin type names (plus `"None"`); `hasattrTyping` is the
`hasattr(typing, name)` membership test. -/
def analyze_types (g : StubGenerator) (_BUILTIN_TYPES : Finset String)
    (hasattrTyping : String → Bool) : Except PyError TypeReport :=
  let needed_types := g.required_types \ _BUILTIN_TYPES
  let needed_types := needed_types \ g.defined_types
  let qualified_types := needed_types.filter (fun name => hasDotChar name)
  let needed_types := needed_types \ qualified_types
  -- `module_vars = {name for name in self.root.children if isinstance(name, VariableNode)}`
  -- builds a set of VariableNode objects, not of their names.
  let module_vars := g.rootChildren.filter (fun n => n.isVariableNode)
  let needed_modules :=
    (qualified_types.filter (fun name => ¬ pyStrInNodes name module_vars)).image
      (fun name => beforeLastDot name)
  let imported_names := (g.imported_names.map (fun name => beforeColons name)).toFinset
  let imported_used := imported_names ∩ (needed_types ∪ needed_modules)
  let report_imported := if imported_used ≠ ∅ then imported_used else ∅
  let needed_types := if imported_used ≠ ∅ then needed_types \ imported_used else needed_types
  let needed_modules := needed_modules \ imported_names
  let report_modules := needed_modules
  let typing_types := needed_types.filter (fun name => hasattrTyping name)
  let report_typing := if typing_types ≠ ∅ then typing_types else ∅
  let needed_types := if typing_types ≠ ∅ then needed_types \ typing_types else needed_types
  if needed_types ≠ ∅ then
    .error (.unresolvedTypes needed_types)
  else
    .ok ⟨report_imported, report_modules, report_typing⟩

/-!
`get_function_node` and the two visitors `visit_FunctionDef` /
`visit_AsyncFunctionDef`.  The function-definition record carries exactly the
AST fields the method reads.  Both visitors receive the same record, because
`ast.FunctionDef` and `ast.AsyncFunctionDef` expose identical fields there;
the docstring signature (extracted through the external docutils machinery in
`extract_signature`) is carried as an already-extracted optional string.
-/

/-- Decorator expressions as far as `get_function_node` inspects them:
a name (`d.id`), a call (`d.func.id`), or an attribute
(`d.value.id + "." + d.attr`). -/
inductive Deco
  | nameD (id : String)
  | callD (funcId : String)
  | attrD (valueId : String) (attr : String)
deriving DecidableEq

def Deco.flat : Deco → String
  | .nameD i => i
  | .callD i => i
  | .attrD v a => v ++ "." ++ a

/-- A formal argument with its source location (`lineno`, `col_offset`). -/
structure ArgInfo where
  arg : String
  loc : Nat × Nat
deriving DecidableEq

/-- The fields of an `ast.FunctionDef` / `ast.AsyncFunctionDef` node read by
`get_function_node`.  `docstringSig` is `extract_signature(get_docstring(node))`;
`kw_defaults` holds one entry per keyword-only argument (`none` when that
argument has no default); `defaults` holds the locations of the positional
default-value expressions. -/
structure FuncDef where
  name : String
  decorator_list : List Deco
  docstringSig : Option (List Char)
  args : List ArgInfo
  vararg : Option String
  kwarg : Option String
  kwonlyargs : List ArgInfo
  defaults : List (Nat × Nat)
  kw_defaults : List (Option Unit)
deriving DecidableEq

/-- Lexicographic order on source locations, as Python compares the
`(lineno, col_offset)` tuples. -/
def locLe (a b : Nat × Nat) : Bool :=
  a.1 < b.1 || (a.1 = b.1 && a.2 ≤ b.2)

/-- Model of `bisect.bisect(param_locs, loc)` for the sorted location list:
the number of entries not exceeding the key. -/
def bisect (locs : List (Nat × Nat)) (key : Nat × Nat) : Nat :=
  (locs.filter (fun l => locLe l key)).length

/-- Model of `StubGenerator.get_function_node`.  The walker context is the
`generic` flag and, for an `__init__` method, the owning class node's
signature (`self._parents[-1].signature` when the parent is a `ClassNode`).
Returns the constructed `FunctionNode` (or `none` when the definition is
skipped) together with the `requires` set merged into `required_types`. -/
def get_function_node (generic : Bool) (parentClassSig : Option (List Char))
    (node : FuncDef) : Except PyError (Option (FunctionNode × Finset String)) :=
  let decorators := node.decorator_list.map Deco.flat
  let signature0 := node.docstringSig
  let signature :=
    match signature0 with
    | some s => some s
    | none => if node.name = "__init__" then parentClassSig else none
  if signature = none ∧ ¬ generic then .ok none
  else
    let param_names := node.args.map (fun a => a.arg)
    let n_args := param_names.length
    let parsed : Except PyError (List (List Char) × List Char × Finset String) :=
      match signature with
      | none => .ok (List.replicate n_args "Any".data, "Any".data, {"Any"})
      | some sig =>
          match parse_signature sig with
          | .ok res =>
              match res.param_types with
              | some pts => .ok (pts, res.return_type, res.requires)
              -- an arrow-less signature leaves `param_types = None`; the later
              -- list operations on it (`insert`, `len`) then raise in Python
              | none => .error .typeError
          | .error e => .error e
    match parsed with
    | .error e => .error e
    | .ok (param_types0, rtype, requires) =>
        let receiver :=
          (0 < n_args ∧ param_names.headD "" = "self") ∨
            (0 < n_args ∧ param_names.headD "" = "cls" ∧ decorators.contains "classmethod")
        let param_types :=
          if receiver then
            match signature with
            | none => param_types0.set 0 []
            | some _ => [] :: param_types0
          else param_types0
        let param_names := param_names ++
          (match node.vararg with | some v => ["*" ++ v] | none => []) ++
          (match node.kwarg with | some k => ["**" ++ k] | none => [])
        let param_types := param_types ++
          (match node.vararg with | some _ => [([] : List Char)] | none => []) ++
          (match node.kwarg with | some _ => [([] : List Char)] | none => [])
        let kwonly_args := node.kwonlyargs
        let param_names := param_names ++ kwonly_args.map (fun a => a.arg)
        let param_types := param_types ++
          (if 0 < kwonly_args.length ∧ signature = none then
            List.replicate kwonly_args.length "Any".data
          else [])
        if param_types.length ≠ param_names.length then
          .error (.valueError ("Parameter names and types don't match: " ++ node.name))
        else
          let param_locs := (node.args ++ kwonly_args).map (fun a => a.loc)
          let param_defaults : Finset Int :=
            (node.defaults.map (fun d => (bisect param_locs d : Int) - 1)).toFinset
          let param_defaults := param_defaults ∪
            ((node.kw_defaults.enum.filterMap
              (fun di => match di.2 with
                | some _ => some ((n_args + di.1 : Nat) : Int)
                | none => none)).toFinset)
          let params := (param_names.zip param_types).enum.map
            (fun nti => (nti.2.1, String.mk nti.2.2, decide (((nti.1 : Nat) : Int) ∈ param_defaults)))
          let params :=
            if 0 < kwonly_args.length then params.insertIdx n_args ("*", "", false)
            else params
          .ok (some (⟨node.name, false, false, params, String.mk rtype, decorators⟩, requires))

/-- Model of `visit_FunctionDef`: process the node, then set the `_async`
attribute (a different attribute from the `async_` field the renderer reads)
to `False`. -/
def visit_FunctionDef (generic : Bool) (parentClassSig : Option (List Char))
    (node : FuncDef) : Except PyError (Option (FunctionNode × Finset String)) :=
  match get_function_node generic parentClassSig node with
  | .ok (some (f, req)) => .ok (some ({ f with async_attr := false }, req))
  | other => other

/-- Model of `visit_AsyncFunctionDef`: same processing, `_async := True`. -/
def visit_AsyncFunctionDef (generic : Bool) (parentClassSig : Option (List Char))
    (node : FuncDef) : Except PyError (Option (FunctionNode × Finset String)) :=
  match get_function_node generic parentClassSig node with
  | .ok (some (f, req)) => .ok (some ({ f with async_attr := true }, req))
  | other => other


/-!
Spec-side vocabulary for the lexical claims, following the specification's
wording: a required type is a "maximal run of word characters, possibly
dot-separated".  `shaped` recognizes the token grammar (nonempty word runs
joined by single dots); `boundaryOk` states that a token occurrence cannot be
extended past the given adjacent characters (reading outward from the token),
which is the maximality condition on one side.
-/

/-- Tail of the token grammar after an initial word character: word
characters continue the current run, and a dot must introduce a new word
run. -/
def shapedTail : List Char → Bool
  | [] => true
  | c :: rest =>
      if isWordChar c then shapedTail rest
      else if c = '.' then
        match rest with
        | d :: rest2 => isWordChar d && shapedTail rest2
        | [] => false
      else false

/-- A token of the shape `\w+(?:\.\w+)*`: nonempty word runs joined by
single dots. -/
def shaped : List Char → Bool
  | [] => false
  | c :: rest => isWordChar c && shapedTail rest

/-- Whether a token adjacent to this side could be extended into the given
characters (read outward from the token): a word character elongates the
adjacent run, and a dot followed by a word character attaches one more run. -/
def extendsToken : List Char → Bool
  | [] => false
  | [p] => isWordChar p
  | p :: q :: _ => isWordChar p || (p = '.' && isWordChar q)

/-- Maximality of a token occurrence on one side: the adjacent characters,
read outward, do not extend the token. -/
def boundaryOk (l : List Char) : Bool := !extendsToken l

/-- Whether the arrow pattern `\s+->\s+` matches anywhere in the string. -/
def hasSpacedArrow : List Char → Bool
  | [] => false
  | c :: rest => (matchArrowAt (c :: rest)).isSome || hasSpacedArrow rest


/-!
Helper lemmas.
-/

theorem dropSpaces1_length {s r : List Char} (h : dropSpaces1 s = some r) :
    r.length < s.length := by
  match s with
  | [] => simp [dropSpaces1] at h
  | c :: rest =>
    by_cases hc : isSpace c
    · simp only [dropSpaces1, hc, if_true, Option.some.injEq] at h
      subst h
      have := (List.dropWhile_suffix (l := rest) isSpace).length_le
      simp only [List.length_cons]
      omega
    · simp [dropSpaces1, hc] at h

theorem matchArrowAt_length {s r : List Char} (h : matchArrowAt s = some r) :
    r.length < s.length := by
  unfold matchArrowAt at h
  rcases h1 : dropSpaces1 s with _ | r1
  · rw [h1] at h; simp at h
  · rw [h1] at h
    simp only [Option.bind_eq_bind, Option.some_bind] at h
    have hr1 : r1.length < s.length := dropSpaces1_length h1
    rcases r1 with _ | ⟨c1, _ | ⟨c2, r2⟩⟩
    · simp at h
    · simp at h
    · by_cases hc1 : c1 = '-'
      · by_cases hc2 : c2 = '>'
        · subst hc1; subst hc2
          have hr : r.length < r2.length := dropSpaces1_length h
          simp only [List.length_cons] at hr1
          omega
        · rw [show (match c1 :: c2 :: r2 with
              | '-' :: '>' :: r2 => dropSpaces1 r2
              | _ => none) = none by
            subst hc1; simp [hc2]] at h
          simp at h
      · rw [show (match c1 :: c2 :: r2 with
            | '-' :: '>' :: r2 => dropSpaces1 r2
            | _ => none) = none by simp [hc1]] at h
        simp at h

theorem dropWhile_cons_length_le (p : Char → Bool) (c : Char) (rest : List Char)
    (hc : p c = true) : ((c :: rest).dropWhile p).length ≤ rest.length := by
  have := (List.dropWhile_suffix (l := rest) p).length_le
  simp only [List.dropWhile_cons, hc, if_true]
  omega

theorem extendDotted_append : ∀ (fuel : Nat) (s : List Char), s.length ≤ fuel + 1 →
    (extendDotted fuel s).1 ++ (extendDotted fuel s).2 = s := by
  intro fuel
  induction fuel with
  | zero =>
      intro s hs
      rcases s with _ | ⟨a, _ | ⟨c, rest⟩⟩ <;> simp [extendDotted] at hs ⊢
  | succ n ih =>
      intro s hs
      rcases s with _ | ⟨a, _ | ⟨c, rest⟩⟩
      · simp [extendDotted]
      · simp [extendDotted]
      · by_cases ha : a = '.'
        · subst ha
          by_cases hc : isWordChar c
          · have hd := dropWhile_cons_length_le isWordChar c rest hc
            have ih2 := ih ((c :: rest).dropWhile isWordChar) (by
              simp only [List.length_cons] at hs; omega)
            simp only [extendDotted, hc, if_true]
            simp only [List.cons_append, List.append_assoc, ih2]
            simp [List.takeWhile_append_dropWhile]
          · simp [extendDotted, hc]
        · have hsel : extendDotted (n + 1) (a :: c :: rest) = ([], a :: c :: rest) := by
            rw [extendDotted.eq_def]
            split
            · rename_i heq; simp_all
            · rfl
          rw [hsel]
          simp

theorem extendDottedW_append (s : List Char) :
    (extendDottedW s).1 ++ (extendDottedW s).2 = s :=
  extendDotted_append s.length s (by omega)

theorem extendDottedW_snd_length (s : List Char) :
    (extendDottedW s).2.length ≤ s.length := by
  conv_rhs => rw [← extendDottedW_append s]
  simp

/-- The membership test of `analyze_types` between a string and the set of
`VariableNode` objects can never succeed. -/
theorem pyStrInNodes_false (name : String) (nodes : List StubNode) :
    pyStrInNodes name nodes = false := by
  induction nodes <;> simp_all [pyStrInNodes, pyStrEqNode]

/-- When the arrow pattern matches nowhere, the split returns the whole
input as the single piece. -/
theorem arrowSplitGo_no_match (fuel : Nat) :
    ∀ (s acc : List Char), s.length ≤ fuel → hasSpacedArrow s = false →
      arrowSplitGo fuel s acc = [acc.reverse ++ s] := by
  induction fuel with
  | zero =>
      intro s acc hlen _
      rcases s with _ | _
      · simp [arrowSplitGo]
      · simp at hlen
  | succ n ih =>
      intro s acc hlen h
      cases s with
      | nil => simp [arrowSplitGo]
      | cons c rest =>
          unfold hasSpacedArrow at h
          simp only [Bool.or_eq_false_iff] at h
          have hm : matchArrowAt (c :: rest) = none := by
            cases hmm : matchArrowAt (c :: rest) with
            | none => rfl
            | some r => rw [hmm] at h; simp at h
          simp only [arrowSplitGo, hm]
          rw [ih rest (c :: acc) (by simp at hlen; omega) h.2]
          simp

theorem arrowSplit_no_match (s : List Char) (h : hasSpacedArrow s = false) :
    arrowSplit s = [s] := by
  unfold arrowSplit
  rw [arrowSplitGo_no_match s.length s [] le_rfl h]
  simp

/-- A fold of the assignment target loop over an error accumulator stays
that error. -/
theorem assignStep_fold_error (generic : Bool) (rtype? : Option (List Char))
    (e : PyError) :
    ∀ (l : List AssignTarget),
      l.foldl (assignStep generic rtype?) (.error e) = .error e := by
  intro l
  induction l with
  | nil => rfl
  | cons x xs ihx => simp only [List.foldl_cons, assignStep]; exact ihx

/-- A single step of the assignment target loop only ever appends
children. -/
theorem assignStep_appends (generic : Bool) (rtype? : Option (List Char))
    (required : Finset String) (children : List StubNode) (var : AssignTarget)
    (required1 : Finset String) (children1 : List StubNode)
    (h : assignStep generic rtype? (.ok (required, children)) var = .ok (required1, children1)) :
    ∃ added, children1 = children ++ added := by
  cases var with
  | nameT name =>
      cases hg : generic with
      | true =>
          simp only [assignStep, hg, if_true, Except.ok.injEq, Prod.mk.injEq] at h
          exact ⟨[StubNode.variableNode name "Any"], h.2.symm⟩
      | false =>
          cases rtype? with
          | some rt =>
              simp only [assignStep, hg, Bool.false_eq_true, if_false, Except.ok.injEq,
                Prod.mk.injEq] at h
              exact ⟨[StubNode.variableNode name (String.mk rt)], h.2.symm⟩
          | none =>
              simp only [assignStep, hg, Bool.false_eq_true, if_false] at h
              exact absurd h (by simp)
  | selfAttr a =>
      simp only [assignStep] at h
      exact absurd h (by simp)
  | otherT =>
      simp only [assignStep, Except.ok.injEq, Prod.mk.injEq] at h
      exact ⟨[], by simp [h.2]⟩

/-- The fold of `visit_Assign`'s target loop only ever appends children. -/
theorem assignStep_fold_appends (generic : Bool) (rtype? : Option (List Char)) :
    ∀ (targets : List AssignTarget) (required : Finset String)
      (children : List StubNode) (required' : Finset String) (children' : List StubNode),
      targets.foldl (assignStep generic rtype?) (.ok (required, children)) =
        .ok (required', children') →
      ∃ added, children' = children ++ added := by
  intro targets
  induction targets with
  | nil =>
      intro required children required' children' h
      simp only [List.foldl_nil, Except.ok.injEq, Prod.mk.injEq] at h
      exact ⟨[], by simp [h.2]⟩
  | cons t rest ih =>
      intro required children required' children' h
      simp only [List.foldl_cons] at h
      cases hstep : assignStep generic rtype? (.ok (required, children)) t with
      | error e =>
          rw [hstep, assignStep_fold_error] at h
          exact absurd h (by simp)
      | ok rc =>
          rw [hstep] at h
          obtain ⟨added1, h1⟩ := assignStep_appends generic rtype? required children t rc.1 rc.2
            (by rw [hstep])
          obtain ⟨added2, h2⟩ := ih rc.1 rc.2 required' children' (by
            have : rc = (rc.1, rc.2) := rfl
            rw [← this]; exact h)
          exact ⟨added1 ++ added2, by rw [h2, h1, List.append_assoc]⟩

/-- Tail of `visit_Assign`: folding the target loop and packing the state
only ever appends children. -/
theorem visitAssign_tail_appends (generic : Bool) (rt? : Option (List Char))
    (targets : List AssignTarget) (r0 : Finset String) (children : List StubNode)
    (st' : ModuleState)
    (h : (match targets.foldl (assignStep generic rt?) (.ok (r0, children)) with
          | .error e => (.error e : Except PyError ModuleState)
          | .ok (required, ch) => .ok ⟨required, ch⟩) = .ok st') :
    ∃ added, st'.rootChildren = children ++ added := by
  cases hfold : targets.foldl (assignStep generic rt?) (.ok (r0, children)) with
  | error e => rw [hfold] at h; simp at h
  | ok rc =>
      obtain ⟨rq, ch⟩ := rc
      rw [hfold] at h
      simp only [Except.ok.injEq] at h
      obtain ⟨added, ha⟩ := assignStep_fold_appends generic rt? targets r0 children rq ch hfold
      exact ⟨added, by rw [← h]; exact ha⟩

/-!
Claim theorems.
-/

/-- C1: the claim states that a qualified name whose containing namespace
equals a module-scope variable name is dropped from the candidate namespace
imports.  In the code the comprehension collects the `VariableNode` objects
themselves, not their names, so the membership test `name not in module_vars`
compares a string with node objects and never succeeds: the filter is dead
code (first conjunct), and on a unit with module variable `x` and required
type `x.A` the namespace `x` is still reported as a needed module (second
conjunct), contradicting the claim. -/
theorem C1_module_var_filter_is_dead :
    (∀ (name : String) (nodes : List StubNode), pyStrInNodes name nodes = false) ∧
      analyze_types ⟨[.variableNode "x" "int"], [], [], ∅, {"int", "x.A"}⟩
        {"int", "None"} (fun _ => false) = .ok ⟨∅, {"x"}, ∅⟩ :=
  ⟨pyStrInNodes_false, by decide⟩

/-- C2 counterexample: a signature with an unmatched `[` parses successfully,
so a bracket depth that does not return to zero is not a parse error. -/
theorem C2_counterexample_unmatched_bracket :
    parse_signature "(List[int) -> str".data =
      .ok ⟨some ["List[int".data], "str".data, {"List", "int", "str"}⟩ := by decide

/-- C2 (amended): a signature splitting into more than two pieces at arrow
tokens fails with the malformed-signature error, but bracket imbalance is not
checked: both an unclosed `[` (see the counterexample) and an unopened `]`
parse successfully. -/
theorem C2_multiple_arrows_error :
    (∀ s : List Char, 2 < (arrowSplit s).length →
      parse_signature s = .error (.valueError "multiple arrows in signature")) ∧
      parse_signature "(]) -> int".data =
        .ok ⟨some ["]".data], "int".data, {"int"}⟩ := by
  refine ⟨fun s h => ?_, by decide⟩
  simp only [parse_signature]
  rw [if_pos h]

/-- C2 witness: the double-arrow example from the specification. -/
theorem C2_multiple_arrows_error_witness :
    2 < (arrowSplit "() -> None -> int".data).length ∧
      parse_signature "() -> None -> int".data =
        .error (.valueError "multiple arrows in signature") :=
  ⟨by decide, C2_multiple_arrows_error.1 "() -> None -> int".data (by decide)⟩

/-- C3: with exactly one arrow and a nonempty left-hand side not wrapped in
parentheses, parsing fails with the malformed-signature error (first
conjunct, the correct part of the claim); but with an empty left-hand side
the subscript `lhs[0]` raises an `IndexError`, not the documented
`ValueError` (second conjunct, the divergence). -/
theorem C3_unparenthesized_lhs :
    (∀ (s a b : List Char), arrowSplit s = [a, b] → strip a ≠ [] →
      ((strip a).headI ≠ '(' ∨ (strip a).getLast? ≠ some ')') →
      parse_signature s =
        .error (.valueError "missing parentheses around parameter list in signature")) ∧
      parse_signature " -> int".data = .error .indexError := by
  refine ⟨fun s a b hsplit hne hpar => ?_, by decide⟩
  simp only [parse_signature, hsplit]
  norm_num
  rcases hm : strip a with _ | ⟨c, cs⟩
  · exact absurd hm hne
  · rw [hm] at hpar
    simp only [List.headI] at hpar
    split
    · rename_i heq
      simp at heq
    · rename_i c2 rest2 heq
      injection heq with hc hrest
      subst hc
      subst hrest
      split
      · rfl
      · rename_i hcond
        rw [not_or, not_not, not_not] at hcond
        obtain ⟨hc1, hc2⟩ := hcond
        rcases hpar with h1 | h2
        · exact absurd hc1 h1
        · rw [List.getLast?_eq_getLast _ (by simp), hc2] at h2
          exact absurd rfl h2

/-- C3 witness: the missing-opening-parenthesis example from the
specification. -/
theorem C3_unparenthesized_lhs_witness :
    arrowSplit "str, int) -> int".data = ["str, int)".data, "int".data] ∧
      parse_signature "str, int) -> int".data =
        .error (.valueError "missing parentheses around parameter list in signature") :=
  ⟨by decide,
    C3_unparenthesized_lhs.1 "str, int) -> int".data "str, int)".data "int".data
      (by decide) (by decide) (by decide)⟩

/-- C4 counterexample: with a plain `import x` recorded in
`imported_namespaces` and a required qualified type `x.A`, the candidate
namespace `x` is still present in the report's needed modules, although `x`
is among the plain namespace-import aliases — the claim's removal does not
happen (the subtraction in the code uses the from-import names instead). -/
theorem C4_counterexample_plain_alias_kept :
    analyze_types ⟨[], ["x"], [], ∅, {"x.A"}⟩ ∅ (fun _ => false) =
        .ok ⟨∅, {"x"}, ∅⟩ ∧
      "x" ∈ (["x"].map beforeColons) := by decide

/-- C4 (amended): before the report is produced, the candidate namespaces
have removed from them exactly the aliases of the unit's *from-imports*
(`imported_names`); plain namespace-import aliases are never subtracted. -/
theorem C4_modules_minus_from_imports (g : StubGenerator) (B : Finset String)
    (T : String → Bool) (r : TypeReport) (h : analyze_types g B T = .ok r) :
    r.modules =
      (((g.required_types \ B) \ g.defined_types).filter (fun n => hasDotChar n)).image
          beforeLastDot \
        (g.imported_names.map beforeColons).toFinset := by
  simp only [analyze_types] at h
  split_ifs at h with h1 h2 h3 h4
  all_goals simp only [Except.ok.injEq] at h
  all_goals rw [← h]
  all_goals simp [pyStrInNodes_false]

/-- C4 witness: a unit with `from p import y` and required `y.A` has no
needed module left, while an unimported `z.B` keeps its namespace. -/
theorem C4_modules_minus_from_imports_witness :
    analyze_types ⟨[], [], ["y"], ∅, {"y.A", "z.B"}⟩ ∅ (fun _ => false) =
        .ok ⟨{"y"}, {"z"}, ∅⟩ ∧
      ({"z"} : Finset String) =
        (((({"y.A", "z.B"} : Finset String) \ ∅) \ ∅).filter
            (fun n => hasDotChar n)).image beforeLastDot \
          (["y"].map beforeColons).toFinset :=
  ⟨by decide,
    C4_modules_minus_from_imports ⟨[], [], ["y"], ∅, {"y.A", "z.B"}⟩ ∅ (fun _ => false)
      ⟨{"y"}, {"z"}, ∅⟩ (by decide)⟩

/-- C6 counterexample: assigning the same module variable name twice, each
time with a signature comment, produces two `VariableNode` children with the
same name under the root — duplicates are not ignored. -/
theorem C6_counterexample_duplicate_variable_nodes :
    (walkModule false
      [.assign "x = 1  # sig: int".data [.nameT "x"],
       .assign "x = 2  # sig: str".data [.nameT "x"]]).map
      (fun st => variableNames st.rootChildren) = .ok ["x", "x"] := by decide

/-- C6 (amended): every processed assignment appends fresh `Variable` nodes
to the owner's children without any duplicate check (first conjunct: the
children list only ever grows by appending), so repeated names yield repeated
nodes, both kept in order (second conjunct; contrast with the claimed
first-wins behavior). -/
theorem C6_assign_appends :
    (∀ (generic : Bool) (st : ModuleState) (line : List Char)
        (targets : List AssignTarget) (st' : ModuleState),
      visit_Assign_module generic st line targets = .ok st' →
      ∃ added, st'.rootChildren = st.rootChildren ++ added) ∧
      (walkModule false
        [.assign "x = 1  # sig: int".data [.nameT "x"],
         .assign "x = 2  # sig: str".data [.nameT "x"]]).map
        (fun st => st.rootChildren) =
      .ok [.variableNode "x" "int", .variableNode "x" "str"] := by
  refine ⟨fun generic st line targets st' h => ?_, by decide⟩
  simp only [visit_Assign_module] at h
  generalize (if containsSub _SIG_COMMENT line = true then subCommentInString line
    else line) = line1 at h
  split_ifs at h with h1 h2
  · simp only [Except.ok.injEq] at h
    exact ⟨[], by simp [← h]⟩
  · revert h
    split
    · intro h; simp at h
    · rename_i required0 rtypeOpt heq
      intro h
      exact visitAssign_tail_appends generic rtypeOpt targets required0
        st.rootChildren st' h
  · exact visitAssign_tail_appends generic none targets st.required_types
      st.rootChildren st' h

/-- The subtraction of `imported_used` from the plain-name working set
removes exactly the from-import aliases. -/
theorem sdiff_inter_union_left (A I M : Finset String) :
    A \ (I ∩ (A ∪ M)) = A \ I := by
  ext a
  simp only [Finset.mem_sdiff, Finset.mem_inter, Finset.mem_union]
  tauto

/-- When no from-import alias is in use, subtracting them changes nothing. -/
theorem sdiff_eq_self_of_inter_empty (A I M : Finset String)
    (h : I ∩ (A ∪ M) = ∅) : A \ I = A := by
  ext a
  simp only [Finset.mem_sdiff, and_iff_left_iff_imp]
  intro ha hi
  have := Finset.eq_empty_iff_forall_not_mem.mp h a
  simp only [Finset.mem_inter, Finset.mem_union] at this
  exact this ⟨hi, Or.inl ha⟩

/-- Filtering with the negated predicate is removing the filtered subset. -/
theorem filter_neg_eq_sdiff (A : Finset String) (p : String → Bool) :
    A.filter (fun a => ¬ p a) = A \ A.filter (fun a => p a) := by
  ext a
  simp only [Finset.mem_filter, Finset.mem_sdiff]
  tauto

/-- When the filtered subset is empty, the negated filter keeps
everything. -/
theorem filter_neg_eq_self_of_filter_empty (A : Finset String) (p : String → Bool)
    (h : A.filter (fun a => p a) = ∅) : A.filter (fun a => ¬ p a) = A := by
  ext a
  simp only [Finset.mem_filter, and_iff_left_iff_imp]
  intro ha hp
  have := Finset.eq_empty_iff_forall_not_mem.mp h a
  simp only [Finset.mem_filter] at this
  exact this ⟨ha, hp⟩

/-- C6 witness for the amended theorem: a single assignment appends its
variable node to the existing children. -/
theorem C6_assign_appends_witness :
    ∃ added,
      (ModuleState.mk {"int"} [StubNode.variableNode "x" "int",
        StubNode.variableNode "x" "int"]).rootChildren =
        (ModuleState.mk ∅ [StubNode.variableNode "x" "int"]).rootChildren ++ added :=
  C6_assign_appends.1 false ⟨∅, [StubNode.variableNode "x" "int"]⟩
    "x = 1  # sig: int".data [.nameT "x"]
    ⟨{"int"}, [StubNode.variableNode "x" "int", StubNode.variableNode "x" "int"]⟩
    (by decide)

/-- C7: type resolution fails exactly when at least one required name
remains after removing builtins, locally defined types, qualified (dotted)
names, from-import aliases, and typing-vocabulary names — and the failure
payload names every one of those remaining names (the source joins the whole
set into the `ValueError` message). -/
theorem C7_unresolved_iff (g : StubGenerator) (B : Finset String) (T : String → Bool)
    (e : PyError) :
    analyze_types g B T = .error e ↔
      (((((g.required_types \ B) \ g.defined_types).filter (fun n => ¬ hasDotChar n)) \
          (g.imported_names.map beforeColons).toFinset).filter (fun n => ¬ T n) ≠ ∅ ∧
        e = .unresolvedTypes
          (((((g.required_types \ B) \ g.defined_types).filter (fun n => ¬ hasDotChar n)) \
            (g.imported_names.map beforeColons).toFinset).filter (fun n => ¬ T n))) := by
  have key :
      ∀ (n2 M I : Finset String),
        (if (I ∩ (n2 ∪ M)) ≠ ∅ then n2 \ (I ∩ (n2 ∪ M)) else n2) = n2 \ I := by
    intro n2 M I
    split_ifs with h
    · exact sdiff_inter_union_left n2 I M
    · rw [not_not] at h
      exact (sdiff_eq_self_of_inter_empty n2 I M h).symm
  have keyT :
      ∀ (n3 : Finset String),
        (if n3.filter (fun n => T n) ≠ ∅ then n3 \ n3.filter (fun n => T n) else n3) =
          n3.filter (fun n => ¬ T n) := by
    intro n3
    split_ifs with h
    · exact (filter_neg_eq_sdiff n3 T).symm
    · rw [not_not] at h
      exact (filter_neg_eq_self_of_filter_empty n3 T h).symm
  have hq :
      ((g.required_types \ B) \ g.defined_types) \
          ((g.required_types \ B) \ g.defined_types).filter (fun n => hasDotChar n) =
        ((g.required_types \ B) \ g.defined_types).filter (fun n => ¬ hasDotChar n) :=
    (filter_neg_eq_sdiff _ _).symm
  simp only [analyze_types, hq]
  rw [key, keyT]
  split_ifs with h
  · constructor
    · intro he
      injection he with he2
      exact ⟨h, he2.symm⟩
    · intro ⟨_, he⟩
      rw [he]
  · constructor
    · intro he; exact absurd he (by simp)
    · intro ⟨hne, _⟩; exact absurd hne (by simpa using h)

/-- C7 witness: the spec's scenario `required={"Foo"}` unresolved anywhere
fails naming exactly `Foo`. -/
theorem C7_unresolved_iff_witness :
    analyze_types ⟨[], [], [], ∅, {"Foo"}⟩ ∅ (fun _ => false) =
      .error (.unresolvedTypes {"Foo"}) :=
  (C7_unresolved_iff ⟨[], [], [], ∅, {"Foo"}⟩ ∅ (fun _ => false)
    (.unresolvedTypes {"Foo"})).mpr ⟨by decide, by decide⟩

/-- C8: the three-tier line-length policy of the callable renderer.  With
`proto` the one-line prototype and `p` the joined parameter list: if `proto`
fits the line-length limit it is emitted as the single prototype line; else
if the indented `p` fits, the parameter list goes on one indented
continuation line between the header and the closing line; otherwise each
parameter goes on its own indented comma-terminated line. -/
theorem C8_three_tier_prototype (f : FunctionNode) :
    (f.prototype.length ≤ MAX_LINE_LENGTH →
      f.get_code = f.decoLines ++ [f.prototype]) ∧
    (MAX_LINE_LENGTH < f.prototype.length →
      (INDENT ++ String.intercalate ", " f.paramDecls).length ≤ MAX_LINE_LENGTH →
      f.get_code = f.decoLines ++
        [(if f.async_ then "async " else "") ++ "def " ++ f.name ++ "(",
         INDENT ++ String.intercalate ", " f.paramDecls,
         ") -> " ++ f.rtype ++ ": ..."]) ∧
    (MAX_LINE_LENGTH < f.prototype.length →
      MAX_LINE_LENGTH < (INDENT ++ String.intercalate ", " f.paramDecls).length →
      f.get_code = f.decoLines ++
        ((if f.async_ then "async " else "") ++ "def " ++ f.name ++ "(")
          :: f.paramDecls.map (fun param => INDENT ++ param ++ ",")
          ++ [") -> " ++ f.rtype ++ ": ..."]) := by
  simp only [FunctionNode.get_code, FunctionNode.prototype]
  refine ⟨fun h1 => ?_, fun h1 h2 => ?_, fun h1 h2 => ?_⟩
  · rw [if_pos h1]
  · rw [if_neg (by omega), if_pos h2]
  · rw [if_neg (by omega), if_neg (by omega)]
    simp

set_option maxRecDepth 4000 in
/-- C8 witness: the end-to-end scenario of the specification — a callable
whose one-line prototype and whose indented parameter list both exceed the
width limit renders one comma-terminated parameter per indented line,
closing with `) -> rtype: ...`. -/
theorem C8_three_tier_prototype_witness :
    MAX_LINE_LENGTH <
        (FunctionNode.mk "function_with_many_parameters" false false
          [("parameter_one", "int", false), ("parameter_two", "str", false),
           ("parameter_three", "Optional[int]", true)] "None" []).prototype.length ∧
      MAX_LINE_LENGTH <
        (INDENT ++ String.intercalate ", "
          (FunctionNode.mk "function_with_many_parameters" false false
            [("parameter_one", "int", false), ("parameter_two", "str", false),
             ("parameter_three", "Optional[int]", true)] "None" []).paramDecls).length ∧
      (FunctionNode.mk "function_with_many_parameters" false false
        [("parameter_one", "int", false), ("parameter_two", "str", false),
         ("parameter_three", "Optional[int]", true)] "None" []).get_code =
        ["def function_with_many_parameters(",
         "    parameter_one: int,",
         "    parameter_two: str,",
         "    parameter_three: Optional[int] = ...,",
         ") -> None: ..."] :=
  ⟨by decide, by decide, by
    have h := (C8_three_tier_prototype
      (FunctionNode.mk "function_with_many_parameters" false false
        [("parameter_one", "int", false), ("parameter_two", "str", false),
         ("parameter_three", "Optional[int]", true)] "None" [])).2.2
      (by decide) (by decide)
    rw [h]
    decide⟩

/-- Rendering a function node does not depend on the `_async` attribute the
walker writes (the renderer reads the distinct `async_` field). -/
theorem get_code_ignores_async_attr (f : FunctionNode) (b : Bool) :
    ({ f with async_attr := b } : FunctionNode).get_code = f.get_code := by
  cases f; rfl

theorem async_field_ignores_async_attr (f : FunctionNode) (b : Bool) :
    ({ f with async_attr := b } : FunctionNode).async_ = f.async_ := by
  cases f; rfl

theorem prototype_ignores_async_attr (f : FunctionNode) (b : Bool) :
    ({ f with async_attr := b } : FunctionNode).prototype = f.prototype := by
  cases f; rfl

/-- Every function node constructed by `get_function_node` has
`async_ = false` (the `FunctionNode.__init__` default, never overwritten). -/
theorem get_function_node_async_false (generic : Bool) (sig : Option (List Char))
    (node : FuncDef) (f : FunctionNode) (req : Finset String)
    (h : get_function_node generic sig node = .ok (some (f, req))) :
    f.async_ = false := by
  simp only [get_function_node] at h
  repeat' split at h
  all_goals simp only [Except.ok.injEq, Option.some.injEq, Prod.mk.injEq,
    reduceCtorEq] at h
  all_goals obtain ⟨hf, -⟩ := h
  all_goals rw [← hf]

/-- C9: visiting the same definition as a plain or as an `async` function
yields the same rendered stub lines (first conjunct), and every node
produced carries `async_ = false`, so its prototype begins with `def `
(remaining conjuncts) — the walker writes `_async`, which the renderer never
reads. -/
theorem C9_async_marking_invisible (generic : Bool) (sig : Option (List Char))
    (node : FuncDef) :
    ((visit_FunctionDef generic sig node).map (Option.map (fun fr => fr.1.get_code)) =
      (visit_AsyncFunctionDef generic sig node).map
        (Option.map (fun fr => fr.1.get_code))) ∧
    (∀ (f : FunctionNode) (req : Finset String),
      visit_FunctionDef generic sig node = .ok (some (f, req)) →
      f.async_ = false ∧ ∃ t : String, f.prototype = "def " ++ t) ∧
    (∀ (f : FunctionNode) (req : Finset String),
      visit_AsyncFunctionDef generic sig node = .ok (some (f, req)) →
      f.async_ = false ∧ ∃ t : String, f.prototype = "def " ++ t) := by
  have hproto : ∀ (f : FunctionNode), f.async_ = false →
      ∃ t : String, f.prototype = "def " ++ t := by
    intro f hf
    refine ⟨f.name ++ "(" ++ String.intercalate ", " f.paramDecls ++ ") -> " ++
      f.rtype ++ ": ...", ?_⟩
    apply String.ext
    simp [FunctionNode.prototype, hf, String.data_append]
  refine ⟨?_, ?_, ?_⟩
  · unfold visit_FunctionDef visit_AsyncFunctionDef
    cases hg : get_function_node generic sig node with
    | error e => rfl
    | ok fr? =>
        cases fr? with
        | none => rfl
        | some fr =>
            obtain ⟨f, req⟩ := fr
            simp only [Except.map, Option.map, get_code_ignores_async_attr]
  · intro f req h
    unfold visit_FunctionDef at h
    cases hg : get_function_node generic sig node with
    | error e => rw [hg] at h; simp at h
    | ok fr? =>
        cases fr? with
        | none => rw [hg] at h; simp at h
        | some fr =>
            obtain ⟨f0, req0⟩ := fr
            rw [hg] at h
            simp only [Except.ok.injEq, Option.some.injEq, Prod.mk.injEq] at h
            have hf0 : f0.async_ = false :=
              get_function_node_async_false generic sig node f0 req0 hg
            have hfa : f.async_ = false := by
              rw [← h.1]; exact hf0
            exact ⟨hfa, hproto f hfa⟩
  · intro f req h
    unfold visit_AsyncFunctionDef at h
    cases hg : get_function_node generic sig node with
    | error e => rw [hg] at h; simp at h
    | ok fr? =>
        cases fr? with
        | none => rw [hg] at h; simp at h
        | some fr =>
            obtain ⟨f0, req0⟩ := fr
            rw [hg] at h
            simp only [Except.ok.injEq, Option.some.injEq, Prod.mk.injEq] at h
            have hf0 : f0.async_ = false :=
              get_function_node_async_false generic sig node f0 req0 hg
            have hfa : f.async_ = false := by
              rw [← h.1]; exact hf0
            exact ⟨hfa, hproto f hfa⟩

/-- C9 witness: a concrete signed function, visited as plain and as async,
renders the same single stub line starting with `def `. -/
theorem C9_async_marking_invisible_witness :
    ((visit_FunctionDef false none
        ⟨"f", [], some "() -> None".data, [], none, none, [], [], []⟩).map
      (Option.map (fun fr => fr.1.get_code)) =
      (visit_AsyncFunctionDef false none
        ⟨"f", [], some "() -> None".data, [], none, none, [], [], []⟩).map
        (Option.map (fun fr => fr.1.get_code))) ∧
      (FunctionNode.mk "f" false false [] "None" []).async_ = false ∧
      ∃ t : String, (FunctionNode.mk "f" false false [] "None" []).prototype =
        "def " ++ t :=
  ⟨(C9_async_marking_invisible false none
      ⟨"f", [], some "() -> None".data, [], none, none, [], [], []⟩).1,
    ((C9_async_marking_invisible false none
      ⟨"f", [], some "() -> None".data, [], none, none, [], [], []⟩).2.1
      (FunctionNode.mk "f" false false [] "None" []) {"None"} (by decide)).1,
    ((C9_async_marking_invisible false none
      ⟨"f", [], some "() -> None".data, [], none, none, [], [], []⟩).2.1
      (FunctionNode.mk "f" false false [] "None" []) {"None"} (by decide)).2⟩

/-- C10: when the two-character arrow occurs in the signature but the spaced
arrow pattern `\s+->\s+` matches nowhere, the whole signature is treated as
a bare type: no parameter list, the trimmed input as the return type, and no
exception. -/
theorem C10_unspaced_arrow_is_bare_type (s : List Char)
    (_ : containsSub "->".data s = true) (h2 : hasSpacedArrow s = false) :
    parse_signature s = .ok ⟨none, strip s, requiredTypes s⟩ := by
  simp only [parse_signature, arrowSplit_no_match s h2]
  norm_num

/-!
Lemmas for the `findall` characterization (claim C5): the matches of
`\w+(?:\.\w+)*` are exactly the maximal dot-joined word runs.
-/

theorem isWordChar_dot : isWordChar '.' = false := by decide

theorem extendsToken_cons_cons (a b : Char) (l : List Char) :
    extendsToken (a :: b :: l) = (isWordChar a || (a = '.' && isWordChar b)) := rfl

theorem boundaryOk_nil : boundaryOk [] = true := rfl

theorem boundaryOk_single (q : Char) : boundaryOk [q] = !isWordChar q := rfl

/-- Appending beyond the first two characters does not change the boundary
test. -/
theorem boundaryOk_append_long (a b : Char) (l ys : List Char) :
    boundaryOk ((a :: b :: l) ++ ys) = boundaryOk (a :: b :: l) := rfl

/-- Extending the context of a boundary by a non-word character on the far
side keeps it a boundary. -/
theorem boundaryOk_append_nonword (xs : List Char) (c : Char)
    (hb : boundaryOk xs = true) (hc : isWordChar c = false) :
    boundaryOk (xs ++ [c]) = true := by
  match xs with
  | [] => simp [boundaryOk, extendsToken, hc]
  | [q] =>
      simp only [boundaryOk, extendsToken, Bool.not_eq_eq_eq_not, Bool.not_true] at hb
      simp [boundaryOk, extendsToken, hb, hc]
  | a :: b :: l => rw [boundaryOk_append_long]; exact hb

/-- A boundary context shortened by its far-side character is still a
boundary. -/
theorem boundaryOk_of_append_single (xs : List Char) (c : Char)
    (hb : boundaryOk (xs ++ [c]) = true) : boundaryOk xs = true := by
  match xs with
  | [] => rfl
  | [q] =>
      simp only [List.cons_append, List.nil_append, boundaryOk, extendsToken,
        Bool.not_eq_eq_eq_not, Bool.not_true, Bool.or_eq_false_iff] at hb
      simp [boundaryOk, extendsToken, hb.1]
  | a :: b :: l => rw [boundaryOk_append_long] at hb; exact hb

/-- The head of a `dropWhile` result fails the predicate. -/
theorem head_dropWhile_false (p : Char → Bool) :
    ∀ (l : List Char) (d : Char), (l.dropWhile p).head? = some d → p d = false := by
  intro l
  induction l with
  | nil => intro d h; simp at h
  | cons c rest ih =>
      intro d h
      by_cases hc : p c
      · rw [List.dropWhile_cons, if_pos hc] at h
        exact ih d h
      · rw [List.dropWhile_cons, if_neg hc] at h
        simp only [List.head?_cons, Option.some.injEq] at h
        rw [← h]
        exact Bool.of_not_eq_true hc

theorem takeWhile_append_of_all (p : Char → Bool) :
    ∀ (a b : List Char), (∀ c ∈ a, p c = true) →
      (a ++ b).takeWhile p = a ++ b.takeWhile p := by
  intro a
  induction a with
  | nil => intro b _; simp
  | cons c a' ih =>
      intro b h
      have hc : p c = true := h c (by simp)
      simp only [List.cons_append, List.takeWhile_cons, hc, if_true]
      rw [ih b (fun x hx => h x (by simp [hx]))]

theorem dropWhile_append_of_all (p : Char → Bool) :
    ∀ (a b : List Char), (∀ c ∈ a, p c = true) →
      (a ++ b).dropWhile p = b.dropWhile p := by
  intro a
  induction a with
  | nil => intro b _; simp
  | cons c a' ih =>
      intro b h
      have hc : p c = true := h c (by simp)
      simp only [List.cons_append, List.dropWhile_cons, hc, if_true]
      exact ih b (fun x hx => h x (by simp [hx]))

theorem takeWhile_append_of_stop (p : Char → Bool) :
    ∀ (a b : List Char), a.dropWhile p ≠ [] →
      (a ++ b).takeWhile p = a.takeWhile p ∧
        (a ++ b).dropWhile p = a.dropWhile p ++ b := by
  intro a
  induction a with
  | nil => intro b h; simp at h
  | cons c a' ih =>
      intro b h
      by_cases hc : p c
      · rw [List.dropWhile_cons, if_pos hc] at h
        obtain ⟨h1, h2⟩ := ih b h
        constructor
        · simp only [List.cons_append, List.takeWhile_cons, hc, if_true, h1]
        · simp only [List.cons_append, List.dropWhile_cons, hc, if_true, h2]
      · have hc2 : p c = false := Bool.of_not_eq_true hc
        simp [List.takeWhile_cons, List.dropWhile_cons, hc2]

/-!
Evaluation lemmas for `extendDotted` and `findallGo`.
-/

theorem extendDotted_nil (fuel : Nat) : extendDotted fuel [] = ([], []) := by
  cases fuel <;> rfl

theorem extendDotted_zero (s : List Char) : extendDotted 0 s = ([], s) := by
  simp [extendDotted]

theorem extendDotted_not_dot (fuel : Nat) (x : Char) (l : List Char)
    (hx : x ≠ '.') : extendDotted fuel (x :: l) = ([], x :: l) := by
  cases fuel with
  | zero => simp [extendDotted]
  | succ n =>
      rw [extendDotted.eq_def]
      split
      · rename_i heq
        injection heq with h1 h2
        exact absurd h1 hx
      · rfl

theorem extendDotted_dot_single (fuel : Nat) :
    extendDotted fuel ['.'] = ([], ['.']) := by
  cases fuel with
  | zero => simp [extendDotted]
  | succ n =>
      rw [extendDotted.eq_def]
      split
      · rename_i heq
        injection heq with h1 h2
        exact absurd h2 (by simp)
      · rfl

theorem extendDotted_dot_word (fuel : Nat) (c : Char) (rest : List Char)
    (hc : isWordChar c = true) :
    extendDotted (fuel + 1) ('.' :: c :: rest) =
      ('.' :: ((c :: rest).takeWhile isWordChar
          ++ (extendDotted fuel ((c :: rest).dropWhile isWordChar)).1),
        (extendDotted fuel ((c :: rest).dropWhile isWordChar)).2) := by
  simp [extendDotted, hc]

theorem extendDotted_dot_nonword (fuel : Nat) (c : Char) (rest : List Char)
    (hc : isWordChar c = false) :
    extendDotted (fuel + 1) ('.' :: c :: rest) = ([], '.' :: c :: rest) := by
  simp [extendDotted, hc]

theorem findallGo_nil (fuel : Nat) : findallGo fuel [] = [] := by
  cases fuel <;> rfl

theorem findallGo_cons_word (fuel : Nat) (c : Char) (rest : List Char)
    (hc : isWordChar c = true) :
    findallGo (fuel + 1) (c :: rest) =
      ((c :: rest).takeWhile isWordChar
          ++ (extendDottedW ((c :: rest).dropWhile isWordChar)).1)
        :: findallGo fuel (extendDottedW ((c :: rest).dropWhile isWordChar)).2 := by
  simp [findallGo, hc]

theorem findallGo_cons_nonword (fuel : Nat) (c : Char) (rest : List Char)
    (hc : isWordChar c = false) :
    findallGo (fuel + 1) (c :: rest) = findallGo fuel rest := by
  simp [findallGo, hc]

/-!
Structure of the token grammar.
-/

theorem shapedTail_cons_word (c : Char) (rest : List Char)
    (hc : isWordChar c = true) : shapedTail (c :: rest) = shapedTail rest := by
  cases rest <;> simp [shapedTail, hc]

theorem shapedTail_dot_cons (d : Char) (r2 : List Char) :
    shapedTail ('.' :: d :: r2) = (isWordChar d && shapedTail r2) := by
  simp [shapedTail, isWordChar_dot]

theorem shapedTail_dot_nil : shapedTail ['.'] = false := by decide

theorem shapedTail_cons_other (c : Char) (rest : List Char)
    (hw : isWordChar c = false) (hd : c ≠ '.') :
    shapedTail (c :: rest) = false := by
  cases rest <;> simp [shapedTail, hw, hd]

theorem shaped_cons (c : Char) (t : List Char) :
    shaped (c :: t) = (isWordChar c && shapedTail t) := rfl

/-- Prepending word characters preserves a valid token tail. -/
theorem shapedTail_append_words :
    ∀ (w e : List Char), (∀ c ∈ w, isWordChar c = true) → shapedTail e = true →
      shapedTail (w ++ e) = true := by
  intro w
  induction w with
  | nil => intro e _ he; simpa using he
  | cons c w' ih =>
      intro e h he
      have hc : isWordChar c = true := h c (by simp)
      rw [List.cons_append, shapedTail_cons_word c _ hc]
      exact ih e (fun x hx => h x (by simp [hx])) he

/-- A nonempty valid token tail ends in a word character. -/
theorem shapedTail_getLast :
    ∀ (u : List Char), shapedTail u = true →
      ∀ x, u.getLast? = some x → isWordChar x = true := by
  intro u
  induction u with
  | nil => intro _ x hx; simp at hx
  | cons c rest ih =>
      intro hsh x hx
      by_cases hw : isWordChar c
      · rw [shapedTail_cons_word c rest hw] at hsh
        rcases rest with _ | ⟨d, r2⟩
        · simp only [List.getLast?_singleton, Option.some.injEq] at hx
          exact hx ▸ hw
        · rw [List.getLast?_cons_cons] at hx
          exact ih hsh x hx
      · have hw2 : isWordChar c = false := Bool.of_not_eq_true hw
        by_cases hd : c = '.'
        · subst hd
          rcases rest with _ | ⟨d, r2⟩
          · simp [shapedTail_dot_nil] at hsh
          · rw [shapedTail_dot_cons] at hsh
            simp only [Bool.and_eq_true] at hsh
            rw [List.getLast?_cons_cons] at hx
            exact ih (by rw [shapedTail_cons_word d r2 hsh.1]; exact hsh.2) x hx
        · rw [shapedTail_cons_other c rest hw2 hd] at hsh
          exact absurd hsh (by simp)

/-- Every character of a valid token tail is a word character or a dot. -/
theorem shapedTail_chars :
    ∀ (u : List Char), shapedTail u = true →
      ∀ x ∈ u, isWordChar x = true ∨ x = '.' := by
  intro u
  induction u with
  | nil => intro _ x hx; simp at hx
  | cons c rest ih =>
      intro hsh x hx
      by_cases hw : isWordChar c
      · rw [shapedTail_cons_word c rest hw] at hsh
        rcases List.mem_cons.mp hx with hx1 | hx2
        · exact Or.inl (hx1 ▸ hw)
        · exact ih hsh x hx2
      · have hw2 : isWordChar c = false := Bool.of_not_eq_true hw
        by_cases hd : c = '.'
        · subst hd
          rcases rest with _ | ⟨d, r2⟩
          · simp [shapedTail_dot_nil] at hsh
          · rw [shapedTail_dot_cons] at hsh
            simp only [Bool.and_eq_true] at hsh
            rcases List.mem_cons.mp hx with hx1 | hx2
            · exact Or.inr hx1
            · exact ih (by rw [shapedTail_cons_word d r2 hsh.1]; exact hsh.2) x hx2
        · rw [shapedTail_cons_other c rest hw2 hd] at hsh
          exact absurd hsh (by simp)

/-- In a valid token tail, the character right before a dot is a word
character. -/
theorem shapedTail_dot_prev :
    ∀ (u xs ys : List Char), u = xs ++ '.' :: ys → shapedTail u = true →
      ∀ p, xs.getLast? = some p → isWordChar p = true := by
  intro u
  induction u with
  | nil =>
      intro xs ys heq _ p hp
      exact absurd heq.symm (by simp)
  | cons a u' ih =>
      intro xs ys heq hsh p hp
      rcases xs with _ | ⟨x0, xs''⟩
      · simp at hp
      · simp only [List.cons_append, List.cons.injEq] at heq
        obtain ⟨hx0, hu'⟩ := heq
        subst hx0
        have hsh' : u' = [] ∨ shapedTail u' = true := by
          by_cases hw : isWordChar a
          · exact Or.inr (by rw [shapedTail_cons_word a u' hw] at hsh; exact hsh)
          · have hw2 : isWordChar a = false := Bool.of_not_eq_true hw
            by_cases hd : a = '.'
            · subst hd
              rcases u' with _ | ⟨d, r2⟩
              · exact Or.inl rfl
              · rw [shapedTail_dot_cons] at hsh
                simp only [Bool.and_eq_true] at hsh
                exact Or.inr (by rw [shapedTail_cons_word d r2 hsh.1]; exact hsh.2)
            · rw [shapedTail_cons_other a u' hw2 hd] at hsh
              exact absurd hsh (by simp)
        rcases xs'' with _ | ⟨x1, xs3⟩
        · simp only [List.getLast?_singleton, Option.some.injEq] at hp
          subst hp
          simp only [List.nil_append] at hu'
          by_cases hw : isWordChar a
          · exact hw
          · have hw2 : isWordChar a = false := Bool.of_not_eq_true hw
            by_cases hd : a = '.'
            · subst hd
              rw [hu', shapedTail_dot_cons] at hsh
              simp [isWordChar_dot] at hsh
            · rw [shapedTail_cons_other a u' hw2 hd] at hsh
              exact absurd hsh (by simp)
        · rw [List.getLast?_cons_cons] at hp
          rcases hsh' with hnil | hsh'
          · rw [hnil] at hu'
            exact absurd hu'.symm (by simp)
          · exact ih (x1 :: xs3) ys hu' hsh' p hp

/-- A token is nonempty. -/
theorem shaped_ne_nil (t : List Char) (h : shaped t = true) : t ≠ [] := by
  intro hnil
  rw [hnil] at h
  simp [shaped] at h

/-- A token starts with a word character. -/
theorem shaped_head_word (c : Char) (t' : List Char)
    (h : shaped (c :: t') = true) : isWordChar c = true := by
  rw [shaped_cons] at h
  exact (Bool.and_eq_true_iff.mp h).1

theorem shaped_tail (c : Char) (t' : List Char)
    (h : shaped (c :: t') = true) : shapedTail t' = true := by
  rw [shaped_cons] at h
  exact (Bool.and_eq_true_iff.mp h).2

/-- A token ends in a word character. -/
theorem shaped_getLast (t : List Char) (h : shaped t = true) :
    ∀ x, t.getLast? = some x → isWordChar x = true := by
  intro x hx
  rcases t with _ | ⟨c, t'⟩
  · simp at hx
  · rcases t' with _ | ⟨d, r2⟩
    · simp only [List.getLast?_singleton, Option.some.injEq] at hx
      exact hx ▸ shaped_head_word c [] h
    · rw [List.getLast?_cons_cons] at hx
      exact shapedTail_getLast _ (shaped_tail _ _ h) x hx

/-- Every character of a token is a word character or a dot. -/
theorem shaped_chars (t : List Char) (h : shaped t = true) :
    ∀ x ∈ t, isWordChar x = true ∨ x = '.' := by
  rcases t with _ | ⟨c, t'⟩
  · intro x hx; simp at hx
  · intro x hx
    rcases List.mem_cons.mp hx with hx1 | hx2
    · exact Or.inl (hx1 ▸ shaped_head_word c t' h)
    · exact shapedTail_chars t' (shaped_tail c t' h) x hx2

/-- In a token, the character right before a dot is a word character, and
a token cannot start with a dot. -/
theorem shaped_dot_prev (t xs ys : List Char) (heq : t = xs ++ '.' :: ys)
    (h : shaped t = true) :
    xs ≠ [] ∧ ∀ p, xs.getLast? = some p → isWordChar p = true := by
  rcases t with _ | ⟨c, t'⟩
  · exact absurd heq.symm (by simp)
  · rcases xs with _ | ⟨x0, xs''⟩
    · simp only [List.nil_append, List.cons.injEq] at heq
      rw [heq.1] at h
      have := shaped_head_word _ _ h
      rw [isWordChar_dot] at this
      exact absurd this (by simp)
    · simp only [List.cons_append, List.cons.injEq] at heq
      obtain ⟨hx0, ht'⟩ := heq
      subst hx0
      refine ⟨by simp, ?_⟩
      intro p hp
      rcases xs'' with _ | ⟨x1, xs3⟩
      · simp only [List.getLast?_singleton, Option.some.injEq] at hp
        subst hp
        simp only [List.nil_append] at ht'
        exact shaped_head_word c t' h
      · rw [List.getLast?_cons_cons] at hp
        exact shapedTail_dot_prev t' (x1 :: xs3) ys ht' (shaped_tail c t' h) p hp

/-!
Properties of the greedy matcher: the produced token is well shaped, the
scan stops at a boundary, and at a shaped occurrence followed by a boundary
the match is exactly that occurrence.
-/

/-- The greedy dotted extension is a valid token tail. -/
theorem extendDotted_fst_shapedTail :
    ∀ (fuel : Nat) (r : List Char), shapedTail (extendDotted fuel r).1 = true := by
  intro fuel
  induction fuel with
  | zero => intro r; rw [extendDotted_zero]; rfl
  | succ n ih =>
      intro r
      rcases r with _ | ⟨a, _ | ⟨c, rest⟩⟩
      · rw [extendDotted_nil]; rfl
      · by_cases ha : a = '.'
        · subst ha; rw [extendDotted_dot_single]; rfl
        · rw [extendDotted_not_dot _ _ _ ha]; rfl
      · by_cases ha : a = '.'
        · subst ha
          by_cases hc : isWordChar c
          · rw [extendDotted_dot_word n c rest hc]
            simp only
            rw [show (c :: rest).takeWhile isWordChar = c :: rest.takeWhile isWordChar by
              simp [List.takeWhile_cons, hc]]
            rw [List.cons_append, shapedTail_dot_cons, hc, Bool.true_and]
            exact shapedTail_append_words _ _
              (fun x hx => List.mem_takeWhile_imp hx) (ih _)
          · rw [extendDotted_dot_nonword n c rest (Bool.of_not_eq_true hc)]; rfl
        · rw [extendDotted_not_dot _ _ _ ha]; rfl

/-- The rest after the greedy dotted extension starts at a boundary, given
enough fuel and a non-word head (the input always comes from a
`dropWhile isWordChar`). -/
theorem extendDotted_snd_boundary :
    ∀ (fuel : Nat) (r : List Char), r.length ≤ fuel + 1 →
      (∀ d, r.head? = some d → isWordChar d = false) →
      boundaryOk (extendDotted fuel r).2 = true := by
  intro fuel
  induction fuel with
  | zero =>
      intro r hlen hhead
      rw [extendDotted_zero]
      rcases r with _ | ⟨x, _ | _⟩
      · rfl
      · rw [boundaryOk_single]; simp [hhead x rfl]
      · simp at hlen
  | succ n ih =>
      intro r hlen hhead
      rcases r with _ | ⟨a, _ | ⟨c, rest⟩⟩
      · rw [extendDotted_nil]; rfl
      · by_cases ha : a = '.'
        · subst ha
          rw [extendDotted_dot_single, boundaryOk_single]
          simp [isWordChar_dot]
        · rw [extendDotted_not_dot _ _ _ ha, boundaryOk_single]
          simp [hhead a rfl]
      · by_cases ha : a = '.'
        · subst ha
          by_cases hc : isWordChar c
          · rw [extendDotted_dot_word n c rest hc]
            simp only
            apply ih
            · have h1 := dropWhile_cons_length_le isWordChar c rest hc
              simp only [List.length_cons] at hlen
              omega
            · exact fun d hd => head_dropWhile_false _ _ d hd
          · have hc2 := Bool.of_not_eq_true hc
            rw [extendDotted_dot_nonword n c rest hc2]
            simp [boundaryOk, extendsToken_cons_cons, isWordChar_dot, hc2]
        · rw [extendDotted_not_dot _ _ _ ha]
          simp [boundaryOk, extendsToken_cons_cons, hhead a rfl, ha]

/-- At a boundary, the greedy dotted extension consumes nothing. -/
theorem extendDotted_of_boundary (fuel : Nat) (post : List Char)
    (hb : boundaryOk post = true) : extendDotted fuel post = ([], post) := by
  rcases post with _ | ⟨a, _ | ⟨c, rest⟩⟩
  · exact extendDotted_nil fuel
  · by_cases ha : a = '.'
    · subst ha; exact extendDotted_dot_single fuel
    · exact extendDotted_not_dot fuel a [] ha
  · by_cases ha : a = '.'
    · subst ha
      have hc : isWordChar c = false := by
        by_cases h : isWordChar c
        · exfalso
          revert hb
          simp [boundaryOk, extendsToken_cons_cons, h]
        · exact Bool.of_not_eq_true h
      cases fuel with
      | zero => exact extendDotted_zero _
      | succ n => exact extendDotted_dot_nonword n c rest hc
    · exact extendDotted_not_dot fuel a (c :: rest) ha

/-- The first character after a boundary is not a word character. -/
theorem boundary_head (x : Char) (l : List Char)
    (hb : boundaryOk (x :: l) = true) : isWordChar x = false := by
  cases l with
  | nil => simpa [boundaryOk_single] using hb
  | cons q l' =>
      simp only [boundaryOk, extendsToken_cons_cons, Bool.not_eq_eq_eq_not,
        Bool.not_true, Bool.or_eq_false_iff] at hb
      exact hb.1

/-- A word-character scan stops immediately at a boundary. -/
theorem takeWhile_boundary (post : List Char) (hb : boundaryOk post = true) :
    post.takeWhile isWordChar = [] ∧ post.dropWhile isWordChar = post := by
  cases post with
  | nil => simp
  | cons x l =>
      have := boundary_head x l hb
      simp [List.takeWhile_cons, List.dropWhile_cons, this]

/-- Dropping the leading word run of a valid token tail leaves a valid token
tail that is empty or starts with a dot. -/
theorem shapedTail_dropWhile :
    ∀ (t : List Char), shapedTail t = true →
      shapedTail (t.dropWhile isWordChar) = true ∧
        (t.dropWhile isWordChar = [] ∨ (t.dropWhile isWordChar).head? = some '.') := by
  intro t
  induction t with
  | nil => intro h; exact ⟨h, Or.inl rfl⟩
  | cons c rest ih =>
      intro hsh
      by_cases hw : isWordChar c
      · rw [List.dropWhile_cons, if_pos hw]
        exact ih (by rw [shapedTail_cons_word c rest hw] at hsh; exact hsh)
      · have hw2 := Bool.of_not_eq_true hw
        rw [List.dropWhile_cons, if_neg hw]
        by_cases hd : c = '.'
        · subst hd
          exact ⟨hsh, Or.inr rfl⟩
        · rw [shapedTail_cons_other c rest hw2 hd] at hsh
          exact absurd hsh (by simp)

/-- Greedy-match determinism for the dotted extension: at a valid dotted
tail followed by a boundary, the extension consumes exactly the tail. -/
theorem extendDotted_exact :
    ∀ (fuel : Nat) (t post : List Char), shapedTail t = true →
      (t = [] ∨ t.head? = some '.') → boundaryOk post = true →
      t.length + post.length ≤ fuel + 1 →
      extendDotted fuel (t ++ post) = (t, post) := by
  intro fuel
  induction fuel with
  | zero =>
      intro t post hsh hdot hb hlen
      rcases hdot with rfl | hhead
      · simpa using extendDotted_of_boundary 0 post hb
      · rcases t with _ | ⟨a, t'⟩
        · simp at hhead
        · simp only [List.head?_cons, Option.some.injEq] at hhead
          subst hhead
          rcases t' with _ | ⟨d, t''⟩
          · rw [shapedTail_dot_nil] at hsh
            exact absurd hsh (by simp)
          · simp only [List.length_cons] at hlen
            omega
  | succ n ih =>
      intro t post hsh hdot hb hlen
      rcases hdot with rfl | hhead
      · simpa using extendDotted_of_boundary (n + 1) post hb
      · rcases t with _ | ⟨a, t'⟩
        · simp at hhead
        · simp only [List.head?_cons, Option.some.injEq] at hhead
          subst hhead
          rcases t' with _ | ⟨d, t''⟩
          · rw [shapedTail_dot_nil] at hsh
            exact absurd hsh (by simp)
          · rw [shapedTail_dot_cons] at hsh
            simp only [Bool.and_eq_true] at hsh
            obtain ⟨hd, hsh''⟩ := hsh
            have hshu : shapedTail (d :: t'') = true := by
              rw [shapedTail_cons_word d t'' hd]; exact hsh''
            have hL9 := shapedTail_dropWhile (d :: t'') hshu
            rw [show ('.' :: d :: t'') ++ post = '.' :: d :: (t'' ++ post) by simp]
            rw [extendDotted_dot_word n d (t'' ++ post) hd]
            rcases hL9.2 with hnil | hdot2
            · have hall : ∀ x ∈ d :: t'', isWordChar x = true :=
                List.dropWhile_eq_nil_iff.mp hnil
              have htake : (d :: (t'' ++ post)).takeWhile isWordChar = (d :: t'') ++ post.takeWhile isWordChar := by
                rw [show d :: (t'' ++ post) = (d :: t'') ++ post by simp]
                exact takeWhile_append_of_all isWordChar (d :: t'') post hall
              have hdrop : (d :: (t'' ++ post)).dropWhile isWordChar = post.dropWhile isWordChar := by
                rw [show d :: (t'' ++ post) = (d :: t'') ++ post by simp]
                exact dropWhile_append_of_all isWordChar (d :: t'') post hall
              obtain ⟨hpt, hpd⟩ := takeWhile_boundary post hb
              rw [htake, hdrop, hpt, hpd, extendDotted_of_boundary n post hb]
              simp
            · have hstop : (d :: t'').dropWhile isWordChar ≠ [] := by
                intro hcon
                rw [hcon] at hdot2
                simp at hdot2
              have hs := takeWhile_append_of_stop isWordChar (d :: t'') post hstop
              have htake : (d :: (t'' ++ post)).takeWhile isWordChar = (d :: t'').takeWhile isWordChar := by
                rw [show d :: (t'' ++ post) = (d :: t'') ++ post by simp]
                exact hs.1
              have hdrop : (d :: (t'' ++ post)).dropWhile isWordChar = (d :: t'').dropWhile isWordChar ++ post := by
                rw [show d :: (t'' ++ post) = (d :: t'') ++ post by simp]
                exact hs.2
              have hlen2 : ((d :: t'').dropWhile isWordChar).length + post.length ≤ n + 1 := by
                have := dropWhile_cons_length_le isWordChar d t'' hd
                simp only [List.length_cons] at hlen
                omega
              rw [htake, hdrop,
                ih ((d :: t'').dropWhile isWordChar) post hL9.1 (Or.inr hdot2) hb hlen2]
              simp only [Prod.mk.injEq, List.cons.injEq, and_true, true_and]
              rw [List.takeWhile_append_dropWhile]

/-- Greedy-match determinism at a token occurrence: when the input is a
token followed by a boundary, the scanner's match is exactly the token. -/
theorem findall_step_exact (t post : List Char) (hsh : shaped t = true)
    (hb : boundaryOk post = true) :
    (t ++ post).takeWhile isWordChar
        ++ (extendDottedW ((t ++ post).dropWhile isWordChar)).1 = t ∧
      (extendDottedW ((t ++ post).dropWhile isWordChar)).2 = post := by
  rcases t with _ | ⟨c, t'⟩
  · exact absurd hsh (by simp [shaped])
  · have hc := shaped_head_word c t' hsh
    have hsht' := shaped_tail c t' hsh
    have hL9 := shapedTail_dropWhile t' hsht'
    have hcons : (c :: t') ++ post = c :: (t' ++ post) := by simp
    rw [hcons, List.takeWhile_cons, if_pos hc, List.dropWhile_cons, if_pos hc]
    rcases hL9.2 with hnil | hdot2
    · have hall : ∀ x ∈ t', isWordChar x = true := List.dropWhile_eq_nil_iff.mp hnil
      obtain ⟨hpt, hpd⟩ := takeWhile_boundary post hb
      rw [takeWhile_append_of_all isWordChar t' post hall,
        dropWhile_append_of_all isWordChar t' post hall, hpt, hpd]
      unfold extendDottedW
      rw [extendDotted_of_boundary post.length post hb]
      simp
    · have hstop : t'.dropWhile isWordChar ≠ [] := by
        intro hcon
        rw [hcon] at hdot2
        simp at hdot2
      have hs := takeWhile_append_of_stop isWordChar t' post hstop
      rw [hs.1, hs.2]
      unfold extendDottedW
      rw [extendDotted_exact (t'.dropWhile isWordChar ++ post).length
        (t'.dropWhile isWordChar) post hL9.1 (Or.inr hdot2) hb (by simp)]
      refine ⟨?_, rfl⟩
      rw [List.cons_append, List.takeWhile_append_dropWhile]

/-- Soundness of the scanner: every reported match is a maximal token
occurrence (well shaped, with boundaries on both sides). -/
theorem findallGo_sound :
    ∀ (fuel : Nat) (s : List Char), s.length ≤ fuel →
      ∀ t, t ∈ findallGo fuel s →
        shaped t = true ∧ ∃ pre post, s = pre ++ t ++ post ∧
          boundaryOk pre.reverse = true ∧ boundaryOk post = true := by
  intro fuel
  induction fuel with
  | zero =>
      intro s hlen t ht
      rcases s with _ | _
      · rw [findallGo_nil] at ht; simp at ht
      · simp at hlen
  | succ n ih =>
      intro s hlen t ht
      rcases s with _ | ⟨c, rest⟩
      · rw [findallGo_nil] at ht; simp at ht
      · by_cases hc : isWordChar c
        · rw [findallGo_cons_word n c rest hc] at ht
          have hdecomp : c :: rest =
              ((c :: rest).takeWhile isWordChar
                  ++ (extendDottedW ((c :: rest).dropWhile isWordChar)).1)
                ++ (extendDottedW ((c :: rest).dropWhile isWordChar)).2 := by
            rw [List.append_assoc, extendDottedW_append, List.takeWhile_append_dropWhile]
          have htokshaped : shaped ((c :: rest).takeWhile isWordChar
              ++ (extendDottedW ((c :: rest).dropWhile isWordChar)).1) = true := by
            rw [show (c :: rest).takeWhile isWordChar = c :: rest.takeWhile isWordChar from by
              simp [List.takeWhile_cons, hc]]
            rw [List.cons_append, shaped_cons, hc, Bool.true_and]
            exact shapedTail_append_words _ _ (fun x hx => List.mem_takeWhile_imp hx)
              (extendDotted_fst_shapedTail _ _)
          have hbrest' : boundaryOk (extendDottedW
              ((c :: rest).dropWhile isWordChar)).2 = true := by
            unfold extendDottedW
            apply extendDotted_snd_boundary
            · omega
            · exact fun d hd => head_dropWhile_false _ _ d hd
          rcases List.mem_cons.mp ht with rfl | hmem
          · exact ⟨htokshaped, [], _, by simpa using hdecomp, rfl, hbrest'⟩
          · have hlr : (extendDottedW ((c :: rest).dropWhile isWordChar)).2.length ≤ n := by
              have h1 := extendDottedW_snd_length ((c :: rest).dropWhile isWordChar)
              have h2 := dropWhile_cons_length_le isWordChar c rest hc
              simp only [List.length_cons] at hlen
              omega
            obtain ⟨hsh1, pre1, post1, hdec1, hbpre1, hbpost1⟩ := ih _ hlr t hmem
            refine ⟨hsh1,
              ((c :: rest).takeWhile isWordChar
                ++ (extendDottedW ((c :: rest).dropWhile isWordChar)).1) ++ pre1,
              post1, ?_, ?_, hbpost1⟩
            · conv_lhs => rw [hdecomp]
              rw [hdec1]
              simp [List.append_assoc]
            · rw [List.reverse_append]
              rcases htr : ((c :: rest).takeWhile isWordChar
                  ++ (extendDottedW ((c :: rest).dropWhile isWordChar)).1).reverse
                  with _ | ⟨x, xs⟩
              · exfalso
                have := shaped_ne_nil _ htokshaped
                rw [← List.reverse_eq_nil_iff.mp htr] at this
                exact this rfl
              · rcases hpr : pre1.reverse with _ | ⟨a, rev'⟩
                · exfalso
                  have hpre1nil : pre1 = [] := List.reverse_eq_nil_iff.mp hpr
                  subst hpre1nil
                  rcases htc : t with _ | ⟨tc, tt⟩
                  · exact absurd htc (shaped_ne_nil t hsh1)
                  · subst htc
                    simp only [List.nil_append] at hdec1
                    rw [hdec1] at hbrest'
                    have := boundary_head tc _ (by simpa using hbrest')
                    rw [shaped_head_word tc tt hsh1] at this
                    simp at this
                · rcases rev' with _ | ⟨b, rev''⟩
                  · -- pre1 is the single character a
                    have hpre1 : pre1 = [a] := by
                      have := congrArg List.reverse hpr
                      simpa using this
                    have hWa : isWordChar a = false := by
                      rw [hpr, boundaryOk_single] at hbpre1
                      simpa using hbpre1
                    have hane : a ≠ '.' := by
                      intro hadot
                      subst hadot
                      subst hpre1
                      rcases htc : t with _ | ⟨tc, tt⟩
                      · exact absurd htc (shaped_ne_nil t hsh1)
                      · subst htc
                        rw [hdec1] at hbrest'
                        simp only [List.cons_append, List.singleton_append,
                          List.nil_append] at hbrest'
                        rw [boundaryOk, extendsToken_cons_cons] at hbrest'
                        simp only [Bool.not_eq_eq_eq_not, Bool.not_true,
                          Bool.or_eq_false_iff, Bool.and_eq_false_iff] at hbrest'
                        rcases hbrest'.2 with hl | hr
                        · simp at hl
                        · rw [shaped_head_word tc tt hsh1] at hr
                          simp at hr
                    simp only [List.singleton_append]
                    rw [boundaryOk, extendsToken_cons_cons]
                    simp [hWa, hane]
                  · rw [boundaryOk_append_long]
                    rw [hpr] at hbpre1
                    exact hbpre1
        · rw [findallGo_cons_nonword n c rest (Bool.of_not_eq_true hc)] at ht
          have hlr : rest.length ≤ n := by
            simp only [List.length_cons] at hlen
            omega
          obtain ⟨hsh1, pre1, post1, hdec1, hbpre1, hbpost1⟩ := ih rest hlr t ht
          refine ⟨hsh1, c :: pre1, post1, by rw [hdec1]; simp, ?_, hbpost1⟩
          rw [List.reverse_cons]
          exact boundaryOk_append_nonword pre1.reverse c hbpre1 (Bool.of_not_eq_true hc)

/-- The scanner's step at a word character: the input decomposes into the
greedy token and the rest, the token is well shaped, and the rest starts at
a boundary. -/
theorem findall_step_facts (c : Char) (rest : List Char) (hc : isWordChar c = true) :
    c :: rest =
        ((c :: rest).takeWhile isWordChar
            ++ (extendDottedW ((c :: rest).dropWhile isWordChar)).1)
          ++ (extendDottedW ((c :: rest).dropWhile isWordChar)).2 ∧
      shaped ((c :: rest).takeWhile isWordChar
          ++ (extendDottedW ((c :: rest).dropWhile isWordChar)).1) = true ∧
      boundaryOk (extendDottedW ((c :: rest).dropWhile isWordChar)).2 = true := by
  refine ⟨?_, ?_, ?_⟩
  · rw [List.append_assoc, extendDottedW_append, List.takeWhile_append_dropWhile]
  · rw [show (c :: rest).takeWhile isWordChar = c :: rest.takeWhile isWordChar from by
      simp [List.takeWhile_cons, hc]]
    rw [List.cons_append, shaped_cons, hc, Bool.true_and]
    exact shapedTail_append_words _ _ (fun x hx => List.mem_takeWhile_imp hx)
      (extendDotted_fst_shapedTail _ _)
  · unfold extendDottedW
    apply extendDotted_snd_boundary
    · omega
    · exact fun d hd => head_dropWhile_false _ _ d hd

/-- Completeness of the scanner: every maximal token occurrence is
reported. -/
theorem findallGo_complete :
    ∀ (fuel : Nat) (s : List Char), s.length ≤ fuel →
      ∀ t pre post, s = pre ++ t ++ post → shaped t = true →
        boundaryOk pre.reverse = true → boundaryOk post = true →
        t ∈ findallGo fuel s := by
  intro fuel
  induction fuel with
  | zero =>
      intro s hlen t pre post hdec hsh hbpre hbpost
      exfalso
      rcases s with _ | _
      · have h0 := List.append_eq_nil.mp hdec.symm
        exact shaped_ne_nil t hsh (List.append_eq_nil.mp h0.1).2
      · simp at hlen
  | succ n ih =>
      intro s hlen t pre post hdec hsh hbpre hbpost
      subst hdec
      rcases pre with _ | ⟨c, pre'⟩
      · simp only [List.nil_append] at *
        rcases ht : t with _ | ⟨tc, tt⟩
        · exact absurd ht (shaped_ne_nil t hsh)
        · subst ht
          have hc := shaped_head_word tc tt hsh
          have hstep := findall_step_exact (tc :: tt) post hsh hbpost
          rw [show (tc :: tt) ++ post = tc :: (tt ++ post) from by simp] at hstep ⊢
          rw [findallGo_cons_word n tc (tt ++ post) hc, hstep.1]
          exact List.mem_cons_self _ _
      · by_cases hc : isWordChar c
        · rw [show (c :: pre') ++ t ++ post = c :: (pre' ++ t ++ post) from by simp] at hlen ⊢
          rw [findallGo_cons_word n c _ hc]
          obtain ⟨hdecomp, htokshaped, hbrest'⟩ :=
            findall_step_facts c (pre' ++ t ++ post) hc
          have htokne := shaped_ne_nil _ htokshaped
          rcases htr : ((c :: (pre' ++ t ++ post)).takeWhile isWordChar
              ++ (extendDottedW ((c :: (pre' ++ t ++ post)).dropWhile isWordChar)).1).reverse
              with _ | ⟨x, xs⟩
          · exact absurd (List.reverse_eq_nil_iff.mp htr) htokne
          · have heq2 : ((c :: (pre' ++ t ++ post)).takeWhile isWordChar
                ++ (extendDottedW ((c :: (pre' ++ t ++ post)).dropWhile isWordChar)).1)
                ++ (extendDottedW ((c :: (pre' ++ t ++ post)).dropWhile isWordChar)).2 =
                (c :: pre') ++ (t ++ post) := by
              rw [← hdecomp]; simp
            rcases List.append_eq_append_iff.mp heq2 with ⟨pre'', hp1, hp2⟩ | ⟨b, hb1, hb2⟩
            · rcases pre'' with _ | ⟨q, pre'''⟩
              · exfalso
                rw [List.append_nil] at hp1
                rw [hp1] at hbpre
                rw [htr] at hbpre
                have hnw := boundary_head x xs hbpre
                have hW : isWordChar x = true := by
                  apply shaped_getLast _ htokshaped
                  rw [← List.head?_reverse, htr]
                  rfl
                rw [hW] at hnw
                exact absurd hnw (by simp)
              · apply List.mem_cons_of_mem
                apply ih _ ?_ t (q :: pre''') post ?_ hsh ?_ hbpost
                · have h1 := extendDottedW_snd_length
                    ((c :: (pre' ++ t ++ post)).dropWhile isWordChar)
                  have h2 := dropWhile_cons_length_le isWordChar c (pre' ++ t ++ post) hc
                  simp only [List.length_cons] at hlen
                  omega
                · rw [hp2, List.append_assoc]
                · -- boundary of (q :: pre''').reverse
                  have hbpre2 : boundaryOk ((q :: pre''').reverse
                      ++ ((c :: (pre' ++ t ++ post)).takeWhile isWordChar
                        ++ (extendDottedW ((c :: (pre' ++ t ++ post)).dropWhile
                          isWordChar)).1).reverse) = true := by
                    rw [← List.reverse_append, ← hp1]
                    exact hbpre
                  rw [htr] at hbpre2
                  rcases hqr : (q :: pre''').reverse with _ | ⟨a, rev'⟩
                  · exact absurd (List.reverse_eq_nil_iff.mp hqr) (by simp)
                  · rw [hqr] at hbpre2
                    rcases rev' with _ | ⟨a2, rev''⟩
                    · simp only [List.singleton_append] at hbpre2
                      rw [boundaryOk, extendsToken_cons_cons] at hbpre2
                      simp only [Bool.not_eq_eq_eq_not, Bool.not_true,
                        Bool.or_eq_false_iff] at hbpre2
                      rw [boundaryOk_single, hbpre2.1]
                      rfl
                    · rw [boundaryOk_append_long] at hbpre2
                      exact hbpre2
            · -- the greedy token would overlap the occurrence: impossible
              exfalso
              have hpne : (c :: pre') ≠ [] := by simp
              have hlp : (c :: pre').getLast? = some ((c :: pre').getLast hpne) :=
                List.getLast?_eq_getLast _ hpne
              rcases hrev : (c :: pre').reverse with _ | ⟨p0, rev'⟩
              · exact absurd (List.reverse_eq_nil_iff.mp hrev) hpne
              · have hp0 : p0 = (c :: pre').getLast hpne := by
                  have := List.head?_reverse (c :: pre')
                  rw [hrev, hlp] at this
                  simpa using this
                have hnw : isWordChar p0 = false := by
                  rw [hrev] at hbpre
                  exact boundary_head p0 rev' hbpre
                have hmem : p0 ∈ ((c :: (pre' ++ t ++ post)).takeWhile isWordChar
                    ++ (extendDottedW ((c :: (pre' ++ t ++ post)).dropWhile
                      isWordChar)).1) := by
                  rw [hb1]
                  apply List.mem_append_left
                  rw [hp0]
                  exact List.getLast_mem hpne
                have hdotp : p0 = '.' := by
                  rcases shaped_chars _ htokshaped p0 hmem with hW | hD
                  · rw [hW] at hnw; exact absurd hnw (by simp)
                  · exact hD
                have hpre0 : (c :: pre').dropLast ++ ['.'] = c :: pre' := by
                  have := List.dropLast_append_getLast hpne
                  rw [← hp0, hdotp] at this
                  exact this
                have htok2 : ((c :: (pre' ++ t ++ post)).takeWhile isWordChar
                    ++ (extendDottedW ((c :: (pre' ++ t ++ post)).dropWhile
                      isWordChar)).1) = (c :: pre').dropLast ++ '.' :: b := by
                  rw [hb1, ← hpre0]
                  simp
                obtain ⟨hne0, hlast0⟩ :=
                  shaped_dot_prev _ _ _ htok2 htokshaped
                rcases hq0 : (c :: pre').dropLast.reverse with _ | ⟨q, rev0⟩
                · exact absurd (List.reverse_eq_nil_iff.mp hq0) hne0
                · have hWq : isWordChar q = true := by
                    apply hlast0
                    rw [← List.head?_reverse, hq0]
                    rfl
                  have hrev2 : (c :: pre').reverse = '.' :: q :: rev0 := by
                    conv_lhs => rw [← hpre0]
                    rw [List.reverse_append, hq0]
                    rfl
                  rw [hrev2] at hbpre
                  rw [boundaryOk, extendsToken_cons_cons] at hbpre
                  simp only [Bool.not_eq_eq_eq_not, Bool.not_true,
                    Bool.or_eq_false_iff, Bool.and_eq_false_iff] at hbpre
                  rcases hbpre.2 with hl | hr
                  · simp at hl
                  · rw [hWq] at hr; exact absurd hr (by simp)
        · have hc2 := Bool.of_not_eq_true hc
          rw [show (c :: pre') ++ t ++ post = c :: (pre' ++ t ++ post) from by simp] at hlen ⊢
          rw [findallGo_cons_nonword n c _ hc2]
          apply ih _ ?_ t pre' post rfl hsh ?_ hbpost
          · simp only [List.length_cons] at hlen
            omega
          · apply boundaryOk_of_append_single pre'.reverse c
            rw [← List.reverse_cons]
            exact hbpre

/-- Characterization of the scanner: a string is reported exactly when it is
a well-shaped dotted word run occurring maximally in the input. -/
theorem qualifiedFindall_iff (s t : List Char) :
    t ∈ qualifiedFindall s ↔
      (shaped t = true ∧ ∃ pre post, s = pre ++ t ++ post ∧
        boundaryOk pre.reverse = true ∧ boundaryOk post = true) := by
  constructor
  · exact findallGo_sound s.length s le_rfl t
  · rintro ⟨hsh, pre, post, hdec, hbpre, hbpost⟩
    exact findallGo_complete s.length s le_rfl t pre post hdec hsh hbpre hbpost

/-- Membership in the required-types set is membership in the scanner's
output. -/
theorem mem_requiredTypes (s : List Char) (ty : String) :
    ty ∈ requiredTypes s ↔ ty.data ∈ qualifiedFindall s := by
  unfold requiredTypes
  rw [List.mem_toFinset, List.mem_map]
  constructor
  · rintro ⟨t, ht, rfl⟩
    exact ht
  · intro h
    exact ⟨ty.data, h, by cases ty; rfl⟩

/-- Every successful parse carries exactly the scanner's required-types set. -/
theorem parse_signature_requires (signature : List Char) (r : ParseResult)
    (h : parse_signature signature = .ok r) :
    r.requires = requiredTypes signature := by
  simp only [parse_signature] at h
  repeat' split at h
  all_goals simp only [Except.ok.injEq, reduceCtorEq] at h
  all_goals rw [← h]

/-- C10 witness: `(int)->str` parses as a bare type. -/
theorem C10_unspaced_arrow_is_bare_type_witness :
    containsSub "->".data "(int)->str".data = true ∧
      hasSpacedArrow "(int)->str".data = false ∧
      parse_signature "(int)->str".data =
        .ok ⟨none, strip "(int)->str".data, requiredTypes "(int)->str".data⟩ :=
  ⟨by decide, by decide,
    C10_unspaced_arrow_is_bare_type "(int)->str".data (by decide) (by decide)⟩

/-- C5: for every signature, the required-types set of a successful parse
contains exactly the maximal runs of word characters possibly joined by dots
occurring anywhere in the signature (duplicates collapsed by the set); in
particular the required set of
`(int, Optional[Tuple[str,int]], str) -> Tuple[int,bool]` is
`{int, Optional, Tuple, str, bool}`, and a dotted name such as `x.y.A` is
captured as a single unit. -/
theorem C5_required_is_maximal_dotted_runs :
    (∀ (s : List Char) (r : ParseResult), parse_signature s = .ok r →
      ∀ ty : String, ty ∈ r.requires ↔
        (shaped ty.data = true ∧ ∃ pre post, s = pre ++ ty.data ++ post ∧
          boundaryOk pre.reverse = true ∧ boundaryOk post = true)) ∧
    (parse_signature "(int, Optional[Tuple[str,int]], str) -> Tuple[int,bool]".data).map
        (fun r => r.requires) = .ok {"int", "Optional", "Tuple", "str", "bool"} ∧
    (parse_signature "(x.y.A) -> None".data).map (fun r => r.requires) =
      .ok {"x.y.A", "None"} := by
  refine ⟨?_, by decide, by decide⟩
  intro s r h ty
  rw [parse_signature_requires s r h, mem_requiredTypes, qualifiedFindall_iff]

/-- C5 witness: the characterization applied to the parse of
`(a) -> x.y.A` at the name `x.y.A`. -/
theorem C5_required_is_maximal_dotted_runs_witness :
    parse_signature "(a) -> x.y.A".data =
      .ok ⟨some ["a".data], "x.y.A".data, {"a", "x.y.A"}⟩ ∧
    ("x.y.A" ∈ ({"a", "x.y.A"} : Finset String) ↔
      (shaped "x.y.A".data = true ∧ ∃ pre post,
        "(a) -> x.y.A".data = pre ++ "x.y.A".data ++ post ∧
        boundaryOk pre.reverse = true ∧ boundaryOk post = true)) :=
  ⟨by decide,
    C5_required_is_maximal_dotted_runs.1 "(a) -> x.y.A".data
      ⟨some ["a".data], "x.y.A".data, {"a", "x.y.A"}⟩
      (by decide) "x.y.A"⟩

end Pygenstub
